import Mathlib

/-!
Verification of the `DataProcessor` transforms of
`src/trends_analyzer/core/processor.py` against the natural-language
specification of the repository.

The pandas semantics is embedded shallowly:

* a cell value (`PVal`) is an exact rational extended with the IEEE
  specials `nan`, `inf` and `ninf` (signed zeros are not modelled, the
  transforms never distinguish them);
* a `DataFrame` is a row-oriented table: a list of column names plus a
  list of rows, each row a list of cells;
* dates are modelled as numeric ordinals (e.g. `2023-01-15 ↦ 20230115`):
  the transforms only ever compare and sort dates, which the ordinal
  encoding preserves;
* `numpy`'s square root on the exact rationals is modelled by the
  componentwise integer square root of the reduced fraction (exact on
  perfect squares; like the float version it maps `0` to `0` and
  positives to positives, which is what every stated property depends
  on);
* rounding (`Series.round`) is numpy's round-half-to-even.

Functions of the source that catch every exception and return normally
(`normalize_data`, `calculate_trends`, `detect_anomalies`,
`aggregate_data`, `filter_data`) are embedded as total functions;
`merge_daily_monthly`, whose `except` block re-raises, is embedded with
an explicit `Except` result so that "raises" versus "returns normally"
is visible in the model (no modelled operation ever throws, hence every
path is an `Except.ok`).
-/

deriving instance DecidableEq for Except

/-! Rational arithmetic used by the embedding.  The `Rat` operations of
the standard library are `@[irreducible]`, which blocks the evaluation
of concrete scenarios inside proofs, so the four field operations are
restated through `mkRat` (they are proved equal to the standard
operations below and the standard symbols are used in every theorem
statement). -/

/-- `mkRat` with an integer denominator (negative denominators move the
sign to the numerator; a zero denominator yields `0`, which the cell
arithmetic never relies on because it guards zero divisors itself). -/
def mkRatI (n d : ℤ) : ℚ := if d < 0 then mkRat (-n) (-d).toNat else mkRat n d.toNat

/-- Addition on `ℚ` through `mkRat`. -/
def qadd (a b : ℚ) : ℚ := mkRat (a.num * b.den + b.num * a.den) (a.den * b.den)

/-- Negation on `ℚ` through `mkRat`. -/
def qneg (a : ℚ) : ℚ := mkRat (-a.num) a.den

/-- Subtraction on `ℚ` through `mkRat`. -/
def qsub (a b : ℚ) : ℚ := qadd a (qneg b)

/-- Multiplication on `ℚ` through `mkRat`. -/
def qmul (a b : ℚ) : ℚ := mkRat (a.num * b.num) (a.den * b.den)

/-- Division on `ℚ` through `mkRat` (zero divisor yields `0`; the cell
arithmetic guards that case separately). -/
def qdiv (a b : ℚ) : ℚ := mkRatI (a.num * b.den) (a.den * b.num)

/-- Integer square root by bounded descent (the largest `k` with
`k * k ≤ n`), kept structurally recursive so that concrete scenarios
reduce inside proofs. -/
def natSqrtAux (n : ℕ) : ℕ → ℕ
  | 0 => 0
  | k + 1 => if (k + 1) * (k + 1) ≤ n then k + 1 else natSqrtAux n k

/-- Integer square root. -/
def natSqrt (n : ℕ) : ℕ := natSqrtAux n n

/-- numpy's `sqrt` modelled on the exact rationals: the componentwise
integer square root of the reduced fraction (exact on perfect squares;
like the float version it maps `0` to `0` and positives to positives,
which is what every stated property depends on). -/
def ratSqrt (q : ℚ) : ℚ := mkRat (Int.ofNat (natSqrt q.num.toNat)) (natSqrt q.den)

/-- A pandas/numpy cell value: an exact rational or one of the IEEE
specials. -/
inductive PVal where
  | nan : PVal
  | inf : PVal
  | ninf : PVal
  | num : ℚ → PVal
deriving DecidableEq, Repr

namespace PVal

/-- IEEE negation. -/
def neg : PVal → PVal
  | nan => nan
  | inf => ninf
  | ninf => inf
  | num a => num (qneg a)

/-- IEEE addition (`nan` propagates, `inf + ninf = nan`). -/
def add : PVal → PVal → PVal
  | nan, _ => nan
  | _, nan => nan
  | inf, ninf => nan
  | ninf, inf => nan
  | inf, _ => inf
  | _, inf => inf
  | ninf, _ => ninf
  | _, ninf => ninf
  | num a, num b => num (qadd a b)

/-- IEEE subtraction. -/
def sub (a b : PVal) : PVal := a.add b.neg

/-- IEEE multiplication (`inf * 0 = nan`). -/
def mul : PVal → PVal → PVal
  | nan, _ => nan
  | _, nan => nan
  | inf, inf => inf
  | inf, ninf => ninf
  | ninf, inf => ninf
  | ninf, ninf => inf
  | inf, num b => if 0 < b then inf else if b < 0 then ninf else nan
  | num a, inf => if 0 < a then inf else if a < 0 then ninf else nan
  | ninf, num b => if 0 < b then ninf else if b < 0 then inf else nan
  | num a, ninf => if 0 < a then ninf else if a < 0 then inf else nan
  | num a, num b => num (qmul a b)

/-- IEEE division: `x/0` is a signed infinity for `x ≠ 0` and `nan` for
`x = 0`, exactly the numpy behaviour the transforms rely on. -/
def div : PVal → PVal → PVal
  | nan, _ => nan
  | _, nan => nan
  | inf, inf => nan
  | inf, ninf => nan
  | ninf, inf => nan
  | ninf, ninf => nan
  | inf, num b => if b < 0 then ninf else inf
  | ninf, num b => if b < 0 then inf else ninf
  | num _, inf => num 0
  | num _, ninf => num 0
  | num a, num b =>
      if b = 0 then (if 0 < a then inf else if a < 0 then ninf else nan)
      else num (qdiv a b)

/-- Absolute value. -/
def abs : PVal → PVal
  | nan => nan
  | inf => inf
  | ninf => inf
  | num a => num (if a < 0 then qneg a else a)

/-- `Series.fillna`: replace `nan` (and only `nan`) by a substitute. -/
def fillna (v repl : PVal) : PVal := if v = nan then repl else v

/-- Square root on cells: `nan` on negatives (numpy emits `nan` with a
warning there), `ratSqrt` on nonnegative rationals. -/
def sqrtv : PVal → PVal
  | nan => nan
  | inf => inf
  | ninf => nan
  | num a => if a < 0 then nan else num (ratSqrt a)

end PVal

/-- Round-half-to-even of a rational to an integer (numpy's rounding
rule). -/
def roundHalfEven (q : ℚ) : ℤ :=
  let f : ℤ := q.floor
  let r : ℚ := qsub q (mkRat f 1)
  if r < mkRat 1 2 then f
  else if mkRat 1 2 < r then f + 1
  else if f % 2 = 0 then f else f + 1

/-- Round a rational to `n` decimal places, half to even
(`Series.round(n)`). -/
def roundQ (n : ℕ) (q : ℚ) : ℚ :=
  let p : ℚ := mkRat ((10 : ℤ) ^ n) 1
  qdiv (mkRat (roundHalfEven (qmul q p)) 1) p

/-- `Series.round(n)` on a cell: specials pass through unchanged. -/
def PVal.roundTo (n : ℕ) : PVal → PVal
  | PVal.num q => PVal.num (roundQ n q)
  | v => v

/-- Python `!=` on cell values: `nan != x` is `True` for every `x`,
including `nan` itself. -/
def pvalNe (a b : PVal) : Bool :=
  match a, b with
  | PVal.nan, _ => true
  | _, PVal.nan => true
  | x, y => decide (x ≠ y)

/-- Python `<` on cell values: every comparison against `nan` is
`False`. -/
def pvalGt : PVal → PVal → Bool
  | PVal.nan, _ => false
  | _, PVal.nan => false
  | PVal.inf, PVal.inf => false
  | PVal.inf, _ => true
  | _, PVal.inf => false
  | PVal.ninf, PVal.ninf => false
  | _, PVal.ninf => true
  | PVal.ninf, _ => false
  | PVal.num a, PVal.num b => decide (b < a)

/-- Total order used by `sort_values` and `quantile`: `nan` sorts
last. -/
def pvalLe : PVal → PVal → Bool
  | _, PVal.nan => true
  | PVal.nan, _ => false
  | PVal.ninf, _ => true
  | _, PVal.ninf => false
  | _, PVal.inf => true
  | PVal.inf, _ => false
  | PVal.num a, PVal.num b => decide (a ≤ b)

/-- Python's `str.endswith`, stated on the character lists of the two
strings. -/
def strEndsWith (s suffix : String) : Bool := suffix.data.isSuffixOf s.data

/-- The non-`nan` entries of a series (pandas reductions skip `nan`). -/
def nonNan (ys : List PVal) : List PVal := ys.filter (fun v => v ≠ PVal.nan)

/-- Sum of a series in cell arithmetic. -/
def sumPVal (ys : List PVal) : PVal := ys.foldl PVal.add (PVal.num 0)

/-- `Series.mean` over a list of cells: skip `nan`, `nan` when nothing
is left. -/
def meanPVal (ys : List PVal) : PVal :=
  let vs := nonNan ys
  if vs.isEmpty then PVal.nan
  else (sumPVal vs).div (PVal.num (mkRat vs.length 1))

/-- Sample standard deviation (`ddof = 1`, pandas default): `nan` with
fewer than two non-`nan` observations. -/
def stdPVal (ys : List PVal) : PVal :=
  let vs := nonNan ys
  if vs.length ≤ 1 then PVal.nan
  else
    let n : ℕ := vs.length
    let m := (sumPVal vs).div (PVal.num (mkRat n 1))
    let sq := sumPVal (vs.map (fun x => (x.sub m).mul (x.sub m)))
    (sq.div (PVal.num (mkRat (n - 1 : ℕ) 1))).sqrtv

/-- `Series.min`: skip `nan`, `nan` when empty. -/
def minPVal (ys : List PVal) : PVal :=
  match nonNan ys with
  | [] => PVal.nan
  | x :: xs => xs.foldl (fun a b => if pvalLe a b then a else b) x

/-- `Series.max`: skip `nan`, `nan` when empty. -/
def maxPVal (ys : List PVal) : PVal :=
  match nonNan ys with
  | [] => PVal.nan
  | x :: xs => xs.foldl (fun a b => if pvalLe b a then a else b) x

/-- `Series.quantile(p)` with the default linear interpolation over the
sorted non-`nan` values. -/
def quantilePVal (values : List PVal) (p : ℚ) : PVal :=
  let vs := (nonNan values).insertionSort (fun a b => pvalLe a b = true)
  let n := vs.length
  if n = 0 then PVal.nan
  else
    let pos : ℚ := qmul p (mkRat (n - 1 : ℕ) 1)
    let i : ℕ := pos.floor.toNat
    let frac : ℚ := qsub pos (mkRat i 1)
    if frac = 0 then vs.getD i PVal.nan
    else (vs.getD i PVal.nan).add
      (((vs.getD (i + 1) PVal.nan).sub (vs.getD i PVal.nan)).mul (PVal.num frac))

/-- The trailing window of width `w` ending at position `t`. -/
def windowAt (xs : List PVal) (w t : ℕ) : List PVal :=
  (xs.take (t + 1)).drop (t + 1 - w)

/-- `Series.rolling(window=w, min_periods=1).mean()`. -/
def rollingMean (xs : List PVal) (w : ℕ) : List PVal :=
  (List.range xs.length).map (fun t => meanPVal (windowAt xs w t))

/-- `Series.rolling(window=w, min_periods=1).std()`. -/
def rollingStd (xs : List PVal) (w : ℕ) : List PVal :=
  (List.range xs.length).map (fun t => stdPVal (windowAt xs w t))

/-- Forward fill starting from a given previous value: each `nan` is
replaced by the last non-`nan` value seen so far. -/
def ffillFrom (last : PVal) : List PVal → List PVal
  | [] => []
  | x :: xs =>
      let y := if x = PVal.nan then last else x
      y :: ffillFrom y xs

/-- Forward fill, the `fill_method='pad'` preprocessing of
`Series.pct_change` (the identity on `nan`-free series). -/
def ffill (xs : List PVal) : List PVal := ffillFrom PVal.nan xs

/-- `Series.pct_change()`: `v[t]/v[t-1] - 1` after padding, `nan` at
row 0. -/
def pctChange (xs : List PVal) : List PVal :=
  let f := ffill xs
  (List.range xs.length).map (fun t =>
    if t = 0 then PVal.nan
    else ((f.getD t PVal.nan).div (f.getD (t - 1) PVal.nan)).sub (PVal.num 1))

/-- `(values / values.shift(w) - 1) * 100`, the raw growth-rate
series. -/
def growthRate (xs : List PVal) (w : ℕ) : List PVal :=
  (List.range xs.length).map (fun t =>
    (((xs.getD t PVal.nan).div
        (if t < w then PVal.nan else xs.getD (t - w) PVal.nan)).sub
      (PVal.num 1)).mul (PVal.num 100))

/-- First index of a column name in a name list (`pandas` resolves
duplicate labels to the first match for the operations modelled
here). -/
def idxOfCol : List String → String → Option ℕ
  | [], _ => none
  | n :: ns, c => if n = c then some 0 else (idxOfCol ns c).map (· + 1)

/-- A row-oriented pandas `DataFrame`: column names plus rows of
cells. -/
structure DataFrame where
  colNames : List String
  rows : List (List PVal)
deriving DecidableEq, Repr

namespace DataFrame

/-- The frame with no columns and no rows (`pd.DataFrame()`). -/
def emptyFrame : DataFrame := ⟨[], []⟩

/-- `df.empty`: true when the frame holds no element. -/
def isEmptyFrame (df : DataFrame) : Bool := df.rows.isEmpty || df.colNames.isEmpty

/-- Well-formedness: every row has one cell per column. -/
def Wf (df : DataFrame) : Prop := ∀ r ∈ df.rows, r.length = df.colNames.length

instance (df : DataFrame) : Decidable df.Wf := by
  unfold Wf; infer_instance

/-- Position of a column, if present. -/
def colIdx (df : DataFrame) (c : String) : Option ℕ := idxOfCol df.colNames c

/-- The cell of a row at a named column (`nan` when the column is
absent, matching the join's null fill). -/
def cellRow (df : DataFrame) (r : List PVal) (c : String) : PVal :=
  match df.colIdx c with
  | some i => r.getD i PVal.nan
  | none => PVal.nan

/-- A whole named column, top to bottom (`df[c]`). -/
def getCol (df : DataFrame) (c : String) : List PVal :=
  df.rows.map (fun r => df.cellRow r c)

/-- Keep exactly the columns whose name satisfies `p` (`df.drop` is the
complement instance). -/
def keepCols (df : DataFrame) (p : String → Bool) : DataFrame :=
  let keep := (List.range df.colNames.length).filter
    (fun i => p (df.colNames.getD i ""))
  ⟨keep.map (fun i => df.colNames.getD i ""),
   df.rows.map (fun r => keep.map (fun i => r.getD i PVal.nan))⟩

/-- `df.drop(columns=[c], errors='ignore')`. -/
def dropCol (df : DataFrame) (c : String) : DataFrame :=
  df.keepCols (fun n => n ≠ c)

/-- `df[c] = vs`: overwrite the column when the label exists, append it
otherwise. -/
def setCol (df : DataFrame) (c : String) (vs : List PVal) : DataFrame :=
  match df.colIdx c with
  | some i => ⟨df.colNames, (df.rows.zip vs).map (fun rv => rv.1.set i rv.2)⟩
  | none => ⟨df.colNames ++ [c], (df.rows.zip vs).map (fun rv => rv.1 ++ [rv.2])⟩

/-- `df.sort_values('date')` (stable, `nan` last). -/
def sortByDate (df : DataFrame) : DataFrame :=
  ⟨df.colNames,
   df.rows.insertionSort
     (fun r1 r2 => pvalLe (df.cellRow r1 "date") (df.cellRow r2 "date") = true)⟩

end DataFrame

/-- `pd.merge(left, right, how='left', on=keys, suffixes=('', sfx))`:
every left row is kept; a left row with several key matches is
repeated, one with none is padded with `nan`; non-key right columns
colliding with a left column name get the suffix. -/
def mergeLeft (left right : DataFrame) (keys : List String) (sfx : String) :
    DataFrame :=
  let rightData := right.colNames.filter (fun c => !(keys.contains c))
  let outNames := left.colNames ++
    rightData.map (fun c => if left.colNames.contains c then c ++ sfx else c)
  let outRows := left.rows.flatMap (fun lr =>
    let ms := right.rows.filter (fun rr =>
      keys.all (fun k => right.cellRow rr k = left.cellRow lr k))
    if ms.isEmpty then [lr ++ rightData.map (fun _ => PVal.nan)]
    else ms.map (fun rr => lr ++ rightData.map (fun c => right.cellRow rr c)))
  ⟨outNames, outRows⟩

/-- One step of the keyword-scaling loop of `merge_daily_monthly`:
`merged[f'{kw}_daily'] = (merged[kw] * merged[f'{kw}_monthly'] / 100).round(2)`
followed by dropping the raw `kw` column; skipped (with a logged
warning) when either source column is absent. -/
def scaleKeyword (df : DataFrame) (kw : String) : DataFrame :=
  if df.colNames.contains kw && df.colNames.contains (kw ++ "_monthly") then
    let scaled := List.zipWith
      (fun a b => ((a.mul b).div (PVal.num 100)).roundTo 2)
      (df.getCol kw) (df.getCol (kw ++ "_monthly"))
    (df.setCol (kw ++ "_daily") scaled).dropCol kw
  else df

/-- `DataProcessor.merge_daily_monthly`: empty input → empty frame;
missing `year`/`month` column in either input → empty frame (after
logging an error); otherwise left-join daily onto monthly (without the
monthly `date`) on `(year, month)`, scale each keyword, drop the join
keys, and sort by date.  The source's `except` clause re-raises, but no
modelled operation throws, so every path returns `Except.ok`. -/
def merge_daily_monthly (daily monthly : DataFrame) (keywords : List String) :
    Except String DataFrame :=
  if daily.isEmptyFrame || monthly.isEmptyFrame then
    Except.ok DataFrame.emptyFrame
  else if !(daily.colNames.contains "year") then Except.ok DataFrame.emptyFrame
  else if !(monthly.colNames.contains "year") then Except.ok DataFrame.emptyFrame
  else if !(daily.colNames.contains "month") then Except.ok DataFrame.emptyFrame
  else if !(monthly.colNames.contains "month") then Except.ok DataFrame.emptyFrame
  else
    let monthlyForMerge := monthly.dropCol "date"
    let merged0 := mergeLeft daily monthlyForMerge ["year", "month"] "_monthly"
    let merged1 := keywords.foldl scaleKeyword merged0
    let merged2 := (merged1.dropCol "year").dropCol "month"
    Except.ok (if merged2.colNames.contains "date" then merged2.sortByDate
      else merged2)

/-- `f'{col}_ma_{window_size}'`. -/
def maName (c : String) (w : ℕ) : String := c ++ ("_ma_" ++ toString w)

/-- `f'{col}_std_{window_size}'`. -/
def stdName (c : String) (w : ℕ) : String := c ++ ("_std_" ++ toString w)

/-- `f'{col}_pct_change'`. -/
def pctName (c : String) : String := c ++ "_pct_change"

/-- `f'{col}_growth_{window_size}d'`. -/
def growthName (c : String) (w : ℕ) : String := c ++ ("_growth_" ++ (toString w ++ "d"))

/-- `f'{col}_volatility'`. -/
def volName (c : String) : String := c ++ "_volatility"

/-- `f'{col}_trend_direction'`. -/
def dirName (c : String) : String := c ++ "_trend_direction"

/-- `f'{col}_anomaly'`. -/
def anomalyName (c : String) : String := c ++ "_anomaly"

/-- `f'{col}_normalized'`. -/
def normalizedName (c : String) : String := c ++ "_normalized"

/-- The body of the per-column loop of `DataProcessor.calculate_trends`
(source lines 208–244): columns absent from the frame are skipped;
otherwise the six derived columns are assigned in source order.  The
growth-rate column is only added when the series has at least
`window_size` observations; the trend direction compares the stored
(rounded) moving average with its predecessor, `nan` comparisons being
`False`. -/
def calcTrendsCol (w : ℕ) (df : DataFrame) (c : String) : DataFrame :=
  if df.colNames.contains c then
    let values := df.getCol c
    let df1 := df.setCol (maName c w) ((rollingMean values w).map (PVal.roundTo 2))
    let df2 := df1.setCol (stdName c w) ((rollingStd values w).map (PVal.roundTo 2))
    let df3 := df2.setCol (pctName c)
      ((pctChange values).map (fun v => (v.fillna (PVal.num 0)).roundTo 4))
    let df4 := if w ≤ values.length then
        df3.setCol (growthName c w)
          ((growthRate values w).map (fun v => (v.fillna (PVal.num 0)).roundTo 2))
      else df3
    let vol := List.zipWith
      (fun s m => (((s.div m).mul (PVal.num 100)).fillna (PVal.num 0)).roundTo 2)
      (rollingStd values w) (rollingMean values w)
    let df5 := df4.setCol (volName c) vol
    let ma := df5.getCol (maName c w)
    let dir := (List.range ma.length).map (fun t =>
      let prev := if t = 0 then PVal.nan else ma.getD (t - 1) PVal.nan
      if pvalGt (ma.getD t PVal.nan) prev then PVal.num 1
      else if pvalGt prev (ma.getD t PVal.nan) then PVal.num (-1)
      else PVal.num 0)
    df5.setCol (dirName c) dir
  else df

/-- `DataProcessor.calculate_trends`: empty input returned as is;
otherwise the transforms run on a copy, sorted by `date` when that
column exists. -/
def calculate_trends (data : DataFrame) (value_columns : List String)
    (window_size : ℕ) : DataFrame :=
  if data.isEmptyFrame then data
  else
    let dc := if data.colNames.contains "date" then data.sortByDate else data
    value_columns.foldl (calcTrendsCol window_size) dc

/-- The body of the per-column loop of `DataProcessor.detect_anomalies`
(source lines 279–310): `iqr` flags values outside the quartile fences,
`zscore` flags large standardized deviations when the deviation is
positive, and any other method name logs a warning and fills the
indicator column with `0`. -/
def detectCol (method : String) (threshold : ℚ) (df : DataFrame) (c : String) :
    DataFrame :=
  if df.colNames.contains c then
    let values := df.getCol c
    if method = "iqr" then
      let q1 := quantilePVal values (1/4)
      let q3 := quantilePVal values (3/4)
      let iqr := q3.sub q1
      let lower := q1.sub ((PVal.num threshold).mul iqr)
      let upper := q3.add ((PVal.num threshold).mul iqr)
      df.setCol (anomalyName c) (values.map (fun v =>
        if pvalGt lower v || pvalGt v upper then PVal.num 1 else PVal.num 0))
    else if method = "zscore" then
      let m := meanPVal values
      let s := stdPVal values
      if pvalGt s (PVal.num 0) then
        df.setCol (anomalyName c) (values.map (fun v =>
          if pvalGt (((v.sub m).div s).abs) (PVal.num threshold) then PVal.num 1
          else PVal.num 0))
      else df.setCol (anomalyName c) (values.map (fun _ => PVal.num 0))
    else
      df.setCol (anomalyName c) (values.map (fun _ => PVal.num 0))
  else df

/-- `DataProcessor.detect_anomalies`: per-column detection on a copy,
then `total_anomalies` summing every `*_anomaly` column present.  The
source catches every exception and returns the input, and no modelled
operation throws, so the embedding is total. -/
def detect_anomalies (data : DataFrame) (value_columns : List String)
    (method : String) (threshold : ℚ) : DataFrame :=
  if data.isEmptyFrame then data
  else
    let dc := value_columns.foldl (detectCol method threshold) data
    let acs := dc.colNames.filter (fun c => strEndsWith c "_anomaly")
    if acs.isEmpty then dc
    else dc.setCol "total_anomalies"
      (dc.rows.map (fun r => sumPVal (nonNan (acs.map (fun c2 => dc.cellRow r c2)))))

/-- The body of the per-column loop of `DataProcessor.normalize_data`
(source lines 135–171).  The method dispatch mirrors Python: note that
the guards compare with Python `!=`, under which `nan != 0` is
`True`. -/
def normalizeCol (method : String) (df : DataFrame) (c : String) : DataFrame :=
  if df.colNames.contains c then
    let values := df.getCol c
    if method = "minmax" then
      let mn := minPVal values
      let mx := maxPVal values
      if pvalNe mx mn then
        df.setCol (normalizedName c) (values.map (fun v => (v.sub mn).div (mx.sub mn)))
      else df.setCol (normalizedName c) (values.map (fun _ => PVal.num 0))
    else if method = "zscore" then
      let m := meanPVal values
      let s := stdPVal values
      if pvalNe s (PVal.num 0) then
        df.setCol (normalizedName c) (values.map (fun v => (v.sub m).div s))
      else df.setCol (normalizedName c) (values.map (fun _ => PVal.num 0))
    else if method = "robust" then
      let md := quantilePVal values (1/2)
      let q1 := quantilePVal values (1/4)
      let q3 := quantilePVal values (3/4)
      let iqr := q3.sub q1
      if pvalNe iqr (PVal.num 0) then
        df.setCol (normalizedName c) (values.map (fun v => (v.sub md).div iqr))
      else df.setCol (normalizedName c) (values.map (fun _ => PVal.num 0))
    else df
  else df

/-- `DataProcessor.normalize_data` with an explicit column list (the
`columns=None` auto-detection of numeric columns needs dtype metadata
that the claims never exercise and is not modelled). -/
def normalize_data (data : DataFrame) (method : String) (columns : List String) :
    DataFrame :=
  if data.isEmptyFrame then data
  else columns.foldl (normalizeCol method) data

/-- One pandas reducer, applied to the cells of one column inside one
group (`nan`-skipping as in pandas). -/
def aggApply (fn : String) (vs : List PVal) : PVal :=
  if fn = "mean" then meanPVal vs
  else if fn = "sum" then sumPVal (nonNan vs)
  else if fn = "min" then minPVal vs
  else if fn = "max" then maxPVal vs
  else if fn = "std" then stdPVal vs
  else PVal.nan

/-- Lexicographic order on group keys (`groupby(sort=True)`). -/
def pvalListLe : List PVal → List PVal → Bool
  | [], _ => true
  | _ :: _, [] => false
  | a :: as1, b :: bs => if a = b then pvalListLe as1 bs else pvalLe a b

/-- The default `agg_functions` mapping of `aggregate_data`. -/
def defaultAggFns (value_columns : List String) : List (String × List String) :=
  value_columns.map (fun c => (c, ["mean", "sum", "min", "max", "std"]))

/-- `DataProcessor.aggregate_data` (source lines 342–370): group-by
columns and value columns absent from the frame are filtered out; when
either filtered list is empty the input frame itself is returned;
otherwise rows are grouped by the valid keys (groups sorted), each
requested reducer applied, and the multi-level result flattened to
`{column}_{reducer}` names. -/
def aggregate_data (data : DataFrame) (groupby_columns value_columns : List String)
    (aggFns : List (String × List String)) : DataFrame :=
  if data.isEmptyFrame then data
  else
    let validG := groupby_columns.filter (fun c => data.colNames.contains c)
    let validV := value_columns.filter (fun c => data.colNames.contains c)
    if validG.isEmpty || validV.isEmpty then data
    else
      let keyOf := fun (r : List PVal) => validG.map (fun c => data.cellRow r c)
      let keys := ((data.rows.map keyOf).dedup).insertionSort
        (fun a b => pvalListLe a b = true)
      let outNames := validG ++
        aggFns.flatMap (fun cf => cf.2.map (fun fn => cf.1 ++ ("_" ++ fn)))
      let outRows := keys.map (fun k =>
        let grp := data.rows.filter (fun r => keyOf r = k)
        k ++ aggFns.flatMap (fun cf =>
          cf.2.map (fun fn => aggApply fn (grp.map (fun r => data.cellRow r cf.1)))))
      ⟨outNames, outRows⟩

/-- `calculate_trends` as a heap transformer: frames live in a heap of
which the caller holds an index.  `data_copy = data.copy()` allocates a
fresh frame and every subsequent write of the source targets the copy,
so the net heap effect is the allocation of the finished result; the
empty-frame path returns the caller's own reference with no write at
all. -/
def calculateTrendsHeap (h : List DataFrame) (r : ℕ) (cols : List String)
    (w : ℕ) : List DataFrame × ℕ :=
  let df := h.getD r DataFrame.emptyFrame
  if df.isEmptyFrame then (h, r)
  else (h ++ [calculate_trends df cols w], h.length)

/-- `detect_anomalies` as a heap transformer, in the same style as
`calculateTrendsHeap`. -/
def detectAnomaliesHeap (h : List DataFrame) (r : ℕ) (cols : List String)
    (method : String) (threshold : ℚ) : List DataFrame × ℕ :=
  let df := h.getD r DataFrame.emptyFrame
  if df.isEmptyFrame then (h, r)
  else (h ++ [detect_anomalies df cols method threshold], h.length)

/-- Daily frame of the concrete end-to-end scenario of the spec
(§8): one row with `date = 2023-01-15`, `outback = 50`, `year = 2023`,
`month = 1`. -/
def dailyEx : DataFrame :=
  ⟨["date", "outback", "year", "month"],
   [[PVal.num 20230115, PVal.num 50, PVal.num 2023, PVal.num 1]]⟩

/-- Monthly frame of the concrete end-to-end scenario of the spec
(§8): one row with `outback_monthly = 80`, `year = 2023`, `month = 1`. -/
def monthlyEx : DataFrame :=
  ⟨["outback_monthly", "year", "month"],
   [[PVal.num 80, PVal.num 2023, PVal.num 1]]⟩

/-- The intermediate left-join of `merge_daily_monthly`: daily onto
monthly without the monthly `date`, on `(year, month)`, monthly
collisions suffixed `_monthly`. -/
def mergedJ (daily monthly : DataFrame) : DataFrame :=
  mergeLeft daily (monthly.dropCol "date") ["year", "month"] "_monthly"

/-- The per-row scaled value of the keyword loop:
`round(merged[kw] * merged[kw_monthly] / 100, 2)`. -/
def scaledFn (df : DataFrame) (kw : String) (r : List PVal) : PVal :=
  (((df.cellRow r kw).mul (df.cellRow r (kw ++ "_monthly"))).div
    (PVal.num 100)).roundTo 2

/-- The whole single-keyword pipeline of `merge_daily_monthly` before
the final date sort: join, append the scaled `{kw}_daily` column, drop
the raw keyword and the join keys. -/
def mergedF (daily monthly : DataFrame) (kw : String) : DataFrame :=
  (((((mergedJ daily monthly).setCol (kw ++ "_daily")
      ((mergedJ daily monthly).rows.map
        (scaledFn (mergedJ daily monthly) kw))).dropCol kw).dropCol
    "year").dropCol "month")

/-- The rows a single left row contributes to the left join: its key
matches on the right, or a single `nan`-padded row when there is
none. -/
def mergeBranch (left right : DataFrame) (keys : List String)
    (lr : List PVal) : List (List PVal) :=
  let ms := right.rows.filter (fun rr =>
    keys.all (fun k => right.cellRow rr k = left.cellRow lr k))
  if ms.isEmpty then
    [lr ++ (right.colNames.filter (fun c => !(keys.contains c))).map
      (fun _ => PVal.nan)]
  else ms.map (fun rr =>
    lr ++ (right.colNames.filter (fun c => !(keys.contains c))).map
      (fun c => right.cellRow rr c))

/-- Daily frame of the zero-overlap scenario: two daily rows, the
second of which has no monthly `(year, month)` match. -/
def dailyU : DataFrame :=
  ⟨["date", "year", "month", "outback"],
   [[PVal.num 1, PVal.num 2020, PVal.num 1, PVal.num 50],
    [PVal.num 2, PVal.num 2020, PVal.num 2, PVal.num 40]]⟩

/-- Monthly frame of the zero-overlap scenario: a single `(2020, 1)`
baseline row. -/
def monthlyU : DataFrame :=
  ⟨["date", "year", "month", "outback_monthly"],
   [[PVal.num 10, PVal.num 2020, PVal.num 1, PVal.num 80]]⟩

/-! Bridging lemmas: the `mkRat`-phrased field operations agree with
the standard rational operations, so theorem statements can use the
standard symbols. -/

theorem num_eq_mul_den (a : ℚ) : (a.num : ℚ) = a * a.den :=
  (div_eq_iff (by exact_mod_cast a.den_nz)).mp (Rat.num_div_den a)

theorem qadd_eq (a b : ℚ) : qadd a b = a + b := by
  have hden : ((a.den : ℚ) * (b.den : ℚ)) ≠ 0 :=
    mul_ne_zero (by exact_mod_cast a.den_nz) (by exact_mod_cast b.den_nz)
  rw [qadd, Rat.mkRat_eq_div]
  push_cast
  rw [div_eq_iff hden, num_eq_mul_den, num_eq_mul_den]
  ring

theorem qneg_eq (a : ℚ) : qneg a = -a := by
  rw [qneg, Rat.mkRat_eq_div]
  push_cast
  rw [neg_div, Rat.num_div_den]

theorem qsub_eq (a b : ℚ) : qsub a b = a - b := by
  rw [qsub, qadd_eq, qneg_eq, sub_eq_add_neg]

theorem qmul_eq (a b : ℚ) : qmul a b = a * b := by
  have hden : ((a.den : ℚ) * (b.den : ℚ)) ≠ 0 :=
    mul_ne_zero (by exact_mod_cast a.den_nz) (by exact_mod_cast b.den_nz)
  rw [qmul, Rat.mkRat_eq_div]
  push_cast
  rw [div_eq_iff hden, num_eq_mul_den, num_eq_mul_den]
  ring

theorem mkRatI_eq (n d : ℤ) : mkRatI n d = (n : ℚ) / (d : ℚ) := by
  rw [mkRatI]
  split
  · rename_i hd
    rw [Rat.mkRat_eq_div]
    have hc : (((-d).toNat : ℕ) : ℚ) = -(d : ℚ) := by
      have h0 : ((-d).toNat : ℤ) = -d := Int.toNat_of_nonneg (by omega)
      exact_mod_cast h0
    rw [hc]
    push_cast
    rw [neg_div_neg_eq]
  · rename_i hd
    rw [Rat.mkRat_eq_div]
    have hc : ((d.toNat : ℕ) : ℚ) = (d : ℚ) := by
      have h0 : (d.toNat : ℤ) = d := Int.toNat_of_nonneg (by omega)
      exact_mod_cast h0
    rw [hc]

theorem qdiv_eq (a b : ℚ) : qdiv a b = a / b := by
  rw [qdiv, mkRatI_eq]
  rcases eq_or_ne b 0 with rfl | hb
  · simp
  · have hbn : (b.num : ℚ) ≠ 0 := by
      exact_mod_cast fun h => hb (Rat.num_eq_zero.mp (by exact_mod_cast h))
    have had : ((a.den : ℚ)) ≠ 0 := by exact_mod_cast a.den_nz
    have hbd : ((b.den : ℚ)) ≠ 0 := by exact_mod_cast b.den_nz
    push_cast
    field_simp
    rw [num_eq_mul_den a, num_eq_mul_den b]
    ring

/-- C5: on the concrete one-row scenario (daily `date=2023-01-15,
outback=50, year=2023, month=1`; monthly `outback_monthly=80,
year=2023, month=1`), rebase produces `outback_daily =
round(50*80/100, 2) = 40.0` and the output carries no `outback`,
`year` or `month` column. -/
theorem rebase_concrete_scenario :
    ∃ out, merge_daily_monthly dailyEx monthlyEx ["outback"] = Except.ok out ∧
      out.getCol "outback_daily" = [PVal.num (roundQ 2 (50 * 80 / 100))] ∧
      roundQ 2 (50 * 80 / 100) = 40 ∧
      out.colNames.contains "outback" = false ∧
      out.colNames.contains "year" = false ∧
      out.colNames.contains "month" = false := by
  have h : (50 * 80 / 100 : ℚ) = 40 := by norm_num
  exact ⟨⟨["date", "outback_monthly", "outback_daily"],
    [[PVal.num 20230115, PVal.num 80, PVal.num 40]]⟩,
    by decide, by rw [h]; decide, by rw [h]; decide, by decide, by decide, by decide⟩

/-- C1 counterexample: a non-empty daily frame lacking the `month`
column, merged with a well-formed non-empty monthly frame, makes
`merge_daily_monthly` return normally with an empty frame — it does not
raise any error. -/
theorem rebase_missing_month_returns_ok_empty :
    merge_daily_monthly ⟨["date", "outback", "year"],
        [[PVal.num 20230115, PVal.num 50, PVal.num 2023]]⟩ monthlyEx ["outback"] =
      Except.ok DataFrame.emptyFrame := by decide

/-- C1 (amended): for every pair of non-empty frames, if either lacks
`year` or `month`, `merge_daily_monthly` logs an error and returns
normally with an empty frame (there is no `MissingColumnError` anywhere
in the code base). -/
theorem rebase_missing_column_yields_empty_frame
    (daily monthly : DataFrame) (kws : List String)
    (hd : daily.isEmptyFrame = false) (hm : monthly.isEmptyFrame = false)
    (hmiss : daily.colNames.contains "year" = false ∨
      monthly.colNames.contains "year" = false ∨
      daily.colNames.contains "month" = false ∨
      monthly.colNames.contains "month" = false) :
    merge_daily_monthly daily monthly kws = Except.ok DataFrame.emptyFrame := by
  unfold merge_daily_monthly
  by_cases h1 : daily.colNames.contains "year" = true <;>
    by_cases h2 : monthly.colNames.contains "year" = true <;>
      by_cases h3 : daily.colNames.contains "month" = true <;>
        by_cases h4 : monthly.colNames.contains "month" = true <;>
          simp_all

theorem rebase_missing_column_yields_empty_frame_witness :
    dailyEx.isEmptyFrame = false ∧
    (DataFrame.mk ["outback_monthly", "year"] [[PVal.num 80, PVal.num 2023]]).isEmptyFrame = false ∧
    (DataFrame.mk ["outback_monthly", "year"] [[PVal.num 80, PVal.num 2023]]).colNames.contains "month" = false ∧
    merge_daily_monthly dailyEx
      ⟨["outback_monthly", "year"], [[PVal.num 80, PVal.num 2023]]⟩ ["outback"] =
      Except.ok DataFrame.emptyFrame :=
  ⟨by decide, by decide, by decide,
   rebase_missing_column_yields_empty_frame dailyEx
     ⟨["outback_monthly", "year"], [[PVal.num 80, PVal.num 2023]]⟩ ["outback"]
     (by decide) (by decide) (Or.inr (Or.inr (Or.inr (by decide))))⟩

/-- C2 counterexample: with the unknown method name `"bogus"`,
`detect_anomalies` returns normally, filling `v_anomaly` with zeros and
adding `total_anomalies` — a silent default instead of the
`UnsupportedMethodError` the claim demands (no such exception exists in
the code base). -/
theorem detect_anomalies_unknown_method_silent_default :
    detect_anomalies ⟨["v"], [[PVal.num 1], [PVal.num 2]]⟩ ["v"] "bogus" (3/2) =
      ⟨["v", "v_anomaly", "total_anomalies"],
       [[PVal.num 1, PVal.num 0, PVal.num 0],
        [PVal.num 2, PVal.num 0, PVal.num 0]]⟩ := by decide

/-- C10: when none of the requested group-by columns, or none of the
requested value columns, exist in a non-empty frame, `aggregate_data`
returns the input frame itself, unchanged. -/
theorem aggregate_invalid_columns_returns_input (df : DataFrame)
    (g v : List String) (fns : List (String × List String))
    (hne : df.isEmptyFrame = false)
    (h : (g.filter (fun c => df.colNames.contains c)).isEmpty = true ∨
         (v.filter (fun c => df.colNames.contains c)).isEmpty = true) :
    aggregate_data df g v fns = df := by
  unfold aggregate_data
  rw [if_neg (by simp [hne])]
  rcases h with h | h
  · simp only [h, Bool.true_or, if_true]
  · simp only [h, Bool.or_true, if_true]

theorem aggregate_invalid_columns_returns_input_witness :
    (DataFrame.mk ["v"] [[PVal.num 1]]).isEmptyFrame = false ∧
    ((["month"].filter (fun c =>
        (DataFrame.mk ["v"] [[PVal.num 1]]).colNames.contains c)).isEmpty = true) ∧
    aggregate_data ⟨["v"], [[PVal.num 1]]⟩ ["month"] ["v"] (defaultAggFns ["v"]) =
      ⟨["v"], [[PVal.num 1]]⟩ :=
  ⟨by decide, by decide,
   aggregate_invalid_columns_returns_input ⟨["v"], [[PVal.num 1]]⟩ ["month"] ["v"]
     (defaultAggFns ["v"]) (by decide) (Or.inl (by decide))⟩

/-- C7: both `calculate_trends` and `detect_anomalies` operate on a
copy of their input: in the heap model of Python references, every
frame the caller already holds is untouched by either call. -/
theorem transforms_preserve_input_frame (h : List DataFrame) (r i : ℕ)
    (cols : List String) (w : ℕ) (method : String) (t : ℚ) (d : DataFrame)
    (hi : i < h.length) :
    (calculateTrendsHeap h r cols w).1.getD i d = h.getD i d ∧
    (detectAnomaliesHeap h r cols method t).1.getD i d = h.getD i d := by
  constructor
  · rw [calculateTrendsHeap]
    split
    · rfl
    · exact List.getD_append _ _ _ _ hi
  · rw [detectAnomaliesHeap]
    split
    · rfl
    · exact List.getD_append _ _ _ _ hi

theorem transforms_preserve_input_frame_witness :
    (0 : ℕ) < [dailyEx].length ∧
    (calculateTrendsHeap [dailyEx] 0 ["outback"] 7).1.getD 0 DataFrame.emptyFrame =
      [dailyEx].getD 0 DataFrame.emptyFrame ∧
    (detectAnomaliesHeap [dailyEx] 0 ["outback"] "iqr" (3/2)).1.getD 0 DataFrame.emptyFrame =
      [dailyEx].getD 0 DataFrame.emptyFrame :=
  ⟨by decide,
   (transforms_preserve_input_frame [dailyEx] 0 0 ["outback"] 7 "iqr" (3/2)
     DataFrame.emptyFrame (by decide)).1,
   (transforms_preserve_input_frame [dailyEx] 0 0 ["outback"] 7 "iqr" (3/2)
     DataFrame.emptyFrame (by decide)).2⟩

/-- C3 counterexample: on the column `[-1, 1]` with window 2 the rolling
mean at row 1 is `0` while the rolling standard deviation is positive,
so the volatility is `+inf` — not coerced to `0`, and infinite. -/
theorem volatility_infinite_on_zero_mean :
    (calculate_trends ⟨["v"], [[PVal.num (-1)], [PVal.num 1]]⟩ ["v"] 2).getCol
      (volName "v") = [PVal.num 0, PVal.inf] := by decide

/-- C4 counterexample: on the column `[0, 0, 1]` with window 2, row 2
has `value[t] = 1` and `value[t-2] = 0`, and the growth-rate cell is
`+inf`: the zero denominator yields infinity, which `fillna(0)` does
not coerce. -/
theorem growth_infinite_on_zero_denominator :
    (calculate_trends ⟨["v"], [[PVal.num 0], [PVal.num 0], [PVal.num 1]]⟩ ["v"] 2).getCol
      (growthName "v" 2) = [PVal.num 0, PVal.num 0, PVal.inf] := by decide

/-- C8 counterexample: on the column `[0, 1]` the percentage change at
row 1 is `1/0 - 1 = +inf`, not the claimed rounded finite ratio and not
`0`. -/
theorem pct_change_infinite_on_zero_denominator :
    (calculate_trends ⟨["v"], [[PVal.num 0], [PVal.num 1]]⟩ ["v"] 7).getCol
      (pctName "v") = [PVal.num 0, PVal.inf] := by decide

/-- C9 counterexample: on a one-row frame the sample standard deviation
is `nan`, Python's `nan != 0` is `True`, so z-score normalization of a
(trivially constant) one-row column yields `nan`, not `0`. -/
theorem normalize_zscore_single_row_nan :
    (normalize_data ⟨["v"], [[PVal.num 5]]⟩ "zscore" ["v"]).getCol
      (normalizedName "v") = [PVal.nan] := by decide

/-! String lemmas: derived column names never collide with each other
or with their source column. -/

theorem str_append_ne_of_data_ne (c : String) {s1 s2 : String}
    (h : s1.data ≠ s2.data) : c ++ s1 ≠ c ++ s2 := by
  intro he
  apply h
  have hd := congrArg String.data he
  rw [String.data_append, String.data_append] at hd
  exact List.append_cancel_left hd

theorem str_ne_append_self (c s : String) (h : s.data ≠ []) : c ≠ c ++ s := by
  intro he
  apply h
  have hd := congrArg String.data he
  rw [String.data_append] at hd
  nth_rewrite 1 [← List.append_nil c.data] at hd
  exact (List.append_cancel_left hd).symm

theorem str_data_ne_of_head (p x s2 : String) (hp : 1 < p.data.length)
    (h : p.data.getD 1 ' ' ≠ s2.data.getD 1 ' ') : (p ++ x).data ≠ s2.data := by
  intro he
  apply h
  have hd := congrArg (fun l : List Char => l.getD 1 ' ') he
  simp only at hd
  rw [String.data_append, List.getD_append _ _ _ _ hp] at hd
  exact hd

theorem str_ne_of_last (c s t : String) (hs : s.data ≠ [])
    (h : s.data.reverse.getD 0 ' ' ≠ t.data.reverse.getD 0 ' ') : c ++ s ≠ t := by
  intro he
  apply h
  have hd := congrArg (fun x : String => x.data.reverse.getD 0 ' ') he
  simp only [String.data_append, List.reverse_append] at hd
  rw [List.getD_append _ _ _ _ (by simpa using List.length_pos.mpr hs)] at hd
  exact hd

/-! Lemmas about `idxOfCol`, the first-occurrence column lookup. -/

theorem idxOfCol_lt_length {ns : List String} {c : String} {i : ℕ}
    (h : idxOfCol ns c = some i) : i < ns.length := by
  induction ns generalizing i with
  | nil => simp [idxOfCol] at h
  | cons n ns ih =>
    rw [idxOfCol] at h
    by_cases hn : n = c
    · rw [if_pos hn] at h
      injection h with h
      simp only [List.length_cons]
      omega
    · rw [if_neg hn] at h
      cases hi : idxOfCol ns c with
      | none => rw [hi] at h; simp at h
      | some j =>
        rw [hi, Option.map_some'] at h
        injection h with h
        have := ih hi
        simp only [List.length_cons]
        omega

theorem idxOfCol_eq_none_iff {ns : List String} {c : String} :
    idxOfCol ns c = none ↔ c ∉ ns := by
  induction ns with
  | nil => simp [idxOfCol]
  | cons n ns ih =>
    rw [idxOfCol]
    by_cases hn : n = c
    · simp [hn]
    · rw [if_neg hn, Option.map_eq_none', ih]
      simp only [List.mem_cons]
      constructor
      · intro hh hc
        rcases hc with hc | hc
        · exact hn hc.symm
        · exact hh hc
      · intro hh hc
        exact hh (Or.inr hc)

theorem idxOfCol_getD {ns : List String} {c : String} {i : ℕ}
    (h : idxOfCol ns c = some i) : ns.getD i "" = c := by
  induction ns generalizing i with
  | nil => simp [idxOfCol] at h
  | cons n ns ih =>
    rw [idxOfCol] at h
    by_cases hn : n = c
    · rw [if_pos hn] at h
      injection h with h
      subst h
      simpa using hn
    · rw [if_neg hn] at h
      cases hi : idxOfCol ns c with
      | none => rw [hi] at h; simp at h
      | some j =>
        rw [hi, Option.map_some'] at h
        injection h with h
        subst h
        simpa using ih hi

theorem idxOfCol_append_left {ns ms : List String} {c : String} {i : ℕ}
    (h : idxOfCol ns c = some i) : idxOfCol (ns ++ ms) c = some i := by
  induction ns generalizing i with
  | nil => simp [idxOfCol] at h
  | cons n ns ih =>
    rw [idxOfCol] at h
    rw [List.cons_append, idxOfCol]
    by_cases hn : n = c
    · rw [if_pos hn] at h ⊢
      exact h
    · rw [if_neg hn] at h ⊢
      cases hi : idxOfCol ns c with
      | none => rw [hi] at h; simp at h
      | some j => rw [ih hi]; rw [hi] at h; exact h

theorem idxOfCol_append_right {ns ms : List String} {c : String}
    (h : idxOfCol ns c = none) :
    idxOfCol (ns ++ ms) c = (idxOfCol ms c).map (· + ns.length) := by
  induction ns with
  | nil => simp
  | cons n ns ih =>
    rw [idxOfCol] at h
    rw [List.cons_append, idxOfCol]
    by_cases hn : n = c
    · rw [if_pos hn] at h; simp at h
    · rw [if_neg hn] at h ⊢
      rw [Option.map_eq_none'] at h
      rw [ih h]
      cases hmc : idxOfCol ms c with
      | none => rfl
      | some j =>
        simp only [Option.map_some', List.length_cons]
        exact congrArg some (by omega)

/-! Structural lemmas about the frame operations. -/

theorem cellRow_eq_getD {df : DataFrame} {c : String} {i : ℕ}
    (h : df.colIdx c = some i) (r : List PVal) :
    df.cellRow r c = r.getD i PVal.nan := by
  simp only [DataFrame.cellRow, h]

theorem cellRow_eq_nan {df : DataFrame} {c : String}
    (h : df.colIdx c = none) (r : List PVal) :
    df.cellRow r c = PVal.nan := by
  simp only [DataFrame.cellRow, h]

theorem getCol_eq_map_getD {df : DataFrame} {c : String} {i : ℕ}
    (h : df.colIdx c = some i) :
    df.getCol c = df.rows.map (fun r => r.getD i PVal.nan) := by
  rw [DataFrame.getCol]
  exact List.map_congr_left (fun r _ => cellRow_eq_getD h r)

theorem getCol_eq_nans {df : DataFrame} {c : String}
    (h : df.colIdx c = none) :
    df.getCol c = df.rows.map (fun _ => PVal.nan) := by
  rw [DataFrame.getCol]
  exact List.map_congr_left (fun r _ => cellRow_eq_nan h r)

theorem getCol_length (df : DataFrame) (c : String) :
    (df.getCol c).length = df.rows.length := by
  simp [DataFrame.getCol]

theorem rows_setCol_length (df : DataFrame) (c : String) (vs : List PVal)
    (hlen : vs.length = df.rows.length) :
    (df.setCol c vs).rows.length = df.rows.length := by
  rw [DataFrame.setCol]
  cases df.colIdx c <;> simp [List.length_zip, hlen]

theorem wf_setCol (df : DataFrame) (c : String) (vs : List PVal)
    (hwf : df.Wf) (hlen : vs.length = df.rows.length) : (df.setCol c vs).Wf := by
  rw [DataFrame.setCol]
  cases hidx : df.colIdx c with
  | some i =>
    intro r hr
    simp only [List.mem_map] at hr
    obtain ⟨⟨r0, v⟩, hmem, rfl⟩ := hr
    have hr0 : r0 ∈ df.rows := (List.of_mem_zip hmem).1
    simp [List.length_set, hwf r0 hr0]
  | none =>
    intro r hr
    simp only [List.mem_map] at hr
    obtain ⟨⟨r0, v⟩, hmem, rfl⟩ := hr
    have hr0 : r0 ∈ df.rows := (List.of_mem_zip hmem).1
    simp [hwf r0 hr0]

theorem zip_map_getD_set (rows : List (List PVal)) (vs : List PVal) (i : ℕ)
    (hlen : vs.length = rows.length) (hall : ∀ r ∈ rows, i < r.length) :
    (rows.zip vs).map (fun rv => (rv.1.set i rv.2).getD i PVal.nan) = vs := by
  induction rows generalizing vs with
  | nil =>
    cases vs with
    | nil => rfl
    | cons v vs => simp at hlen
  | cons r rows ih =>
    cases vs with
    | nil => simp at hlen
    | cons v vs =>
      simp only [List.zip_cons_cons, List.map_cons]
      congr 1
      · rw [List.getD_eq_getElem?_getD, List.getElem?_set_self (hall r (by simp))]
        rfl
      · exact ih vs (by simpa using hlen) (fun r2 hr2 => hall r2 (by simp [hr2]))

theorem zip_map_getD_set_ne (rows : List (List PVal)) (vs : List PVal)
    (i i2 : ℕ) (hlen : vs.length = rows.length) (hii : i ≠ i2) :
    (rows.zip vs).map (fun rv => (rv.1.set i2 rv.2).getD i PVal.nan) =
      rows.map (fun r => r.getD i PVal.nan) := by
  induction rows generalizing vs with
  | nil => rfl
  | cons r rows ih =>
    cases vs with
    | nil => simp at hlen
    | cons v vs =>
      simp only [List.zip_cons_cons, List.map_cons]
      congr 1
      · rw [List.getD_eq_getElem?_getD, List.getElem?_set_ne (Ne.symm hii),
          List.getD_eq_getElem?_getD]
      · exact ih vs (by simpa using hlen)

theorem zip_map_getD_append (rows : List (List PVal)) (vs : List PVal) (n : ℕ)
    (hlen : vs.length = rows.length) (hall : ∀ r ∈ rows, r.length = n) :
    (rows.zip vs).map (fun rv => (rv.1 ++ [rv.2]).getD n PVal.nan) = vs := by
  induction rows generalizing vs with
  | nil =>
    cases vs with
    | nil => rfl
    | cons v vs => simp at hlen
  | cons r rows ih =>
    cases vs with
    | nil => simp at hlen
    | cons v vs =>
      simp only [List.zip_cons_cons, List.map_cons]
      congr 1
      · rw [List.getD_append_right _ _ _ _ (le_of_eq (hall r (by simp))),
          hall r (by simp)]
        simp
      · exact ih vs (by simpa using hlen) (fun r2 hr2 => hall r2 (by simp [hr2]))

theorem zip_map_getD_append_lt (rows : List (List PVal)) (vs : List PVal)
    (i : ℕ) (hlen : vs.length = rows.length) (hall : ∀ r ∈ rows, i < r.length) :
    (rows.zip vs).map (fun rv => (rv.1 ++ [rv.2]).getD i PVal.nan) =
      rows.map (fun r => r.getD i PVal.nan) := by
  induction rows generalizing vs with
  | nil => rfl
  | cons r rows ih =>
    cases vs with
    | nil => simp at hlen
    | cons v vs =>
      simp only [List.zip_cons_cons, List.map_cons]
      congr 1
      · exact List.getD_append _ _ _ _ (hall r (by simp))
      · exact ih vs (by simpa using hlen) (fun r2 hr2 => hall r2 (by simp [hr2]))

theorem map_nan_eq_of_length {l1 l2 : List (List PVal)} (h : l1.length = l2.length) :
    l1.map (fun _ => PVal.nan) = l2.map (fun _ => PVal.nan) := by
  rw [List.map_const', List.map_const', h]

theorem getCol_setCol_self (df : DataFrame) (c : String) (vs : List PVal)
    (hwf : df.Wf) (hlen : vs.length = df.rows.length) :
    (df.setCol c vs).getCol c = vs := by
  rw [DataFrame.setCol]
  cases hidx : df.colIdx c with
  | some i =>
    have hib : i < df.colNames.length := idxOfCol_lt_length hidx
    rw [@getCol_eq_map_getD ⟨df.colNames,
      (df.rows.zip vs).map (fun rv => rv.1.set i rv.2)⟩ _ _ hidx]
    rw [List.map_map]
    exact zip_map_getD_set df.rows vs i hlen
      (fun r hr => by rw [hwf r hr]; exact hib)
  | none =>
    have hidx2 : idxOfCol (df.colNames ++ [c]) c = some df.colNames.length := by
      rw [idxOfCol_append_right hidx]
      simp [idxOfCol]
    rw [@getCol_eq_map_getD ⟨df.colNames ++ [c],
      (df.rows.zip vs).map (fun rv => rv.1 ++ [rv.2])⟩ _ _ hidx2]
    rw [List.map_map]
    exact zip_map_getD_append df.rows vs df.colNames.length hlen hwf

theorem getCol_setCol_ne (df : DataFrame) (c c2 : String) (vs : List PVal)
    (hwf : df.Wf) (hlen : vs.length = df.rows.length) (hne : c ≠ c2) :
    (df.setCol c2 vs).getCol c = df.getCol c := by
  rw [DataFrame.setCol]
  cases hidx2 : df.colIdx c2 with
  | some i2 =>
    cases hidx : df.colIdx c with
    | some i =>
      have hii : i ≠ i2 := by
        intro he
        apply hne
        have h1 := idxOfCol_getD hidx
        have h2 := idxOfCol_getD hidx2
        rw [← h1, ← h2, he]
      rw [@getCol_eq_map_getD ⟨df.colNames,
        (df.rows.zip vs).map (fun rv => rv.1.set i2 rv.2)⟩ _ _ hidx]
      rw [getCol_eq_map_getD hidx, List.map_map]
      exact zip_map_getD_set_ne df.rows vs i i2 hlen hii
    | none =>
      rw [@getCol_eq_nans ⟨df.colNames,
        (df.rows.zip vs).map (fun rv => rv.1.set i2 rv.2)⟩ _ hidx]
      rw [getCol_eq_nans hidx]
      exact map_nan_eq_of_length (by simp [List.length_zip, hlen])
  | none =>
    cases hidx : df.colIdx c with
    | some i =>
      have hib : i < df.colNames.length := idxOfCol_lt_length hidx
      have hidxb : idxOfCol (df.colNames ++ [c2]) c = some i :=
        idxOfCol_append_left hidx
      rw [@getCol_eq_map_getD ⟨df.colNames ++ [c2],
        (df.rows.zip vs).map (fun rv => rv.1 ++ [rv.2])⟩ _ _ hidxb]
      rw [getCol_eq_map_getD hidx, List.map_map]
      exact zip_map_getD_append_lt df.rows vs i hlen
        (fun r hr => by rw [hwf r hr]; exact hib)
    | none =>
      have hidxb : idxOfCol (df.colNames ++ [c2]) c = none := by
        rw [idxOfCol_append_right hidx, idxOfCol]
        rw [if_neg (Ne.symm hne)]
        simp [idxOfCol]
      rw [@getCol_eq_nans ⟨df.colNames ++ [c2],
        (df.rows.zip vs).map (fun rv => rv.1 ++ [rv.2])⟩ _ hidxb]
      rw [getCol_eq_nans hidx]
      exact map_nan_eq_of_length (by simp [List.length_zip, hlen])

/-! Computation lemmas for the cell arithmetic. -/

theorem pval_add_num (a b : ℚ) :
    (PVal.num a).add (PVal.num b) = PVal.num (a + b) := by
  simp only [PVal.add]
  rw [qadd_eq]

theorem pval_sub_num (a b : ℚ) :
    (PVal.num a).sub (PVal.num b) = PVal.num (a - b) := by
  simp only [PVal.sub, PVal.neg, PVal.add]
  rw [qneg_eq, qadd_eq, ← sub_eq_add_neg]

theorem pval_mul_num (a b : ℚ) :
    (PVal.num a).mul (PVal.num b) = PVal.num (a * b) := by
  simp only [PVal.mul]
  rw [qmul_eq]

theorem pval_div_num (a b : ℚ) (hb : b ≠ 0) :
    (PVal.num a).div (PVal.num b) = PVal.num (a / b) := by
  simp only [PVal.div]
  rw [if_neg hb, qdiv_eq]

theorem fillna_num (a : ℚ) (r : PVal) : (PVal.num a).fillna r = PVal.num a := by
  simp [PVal.fillna]

theorem fillna_nan (r : PVal) : PVal.nan.fillna r = r := by
  simp [PVal.fillna]

theorem roundTo_num (n : ℕ) (a : ℚ) :
    (PVal.num a).roundTo n = PVal.num (roundQ n a) := rfl

theorem ratSqrt_zero : ratSqrt 0 = 0 := by decide

theorem mkRat_one (n : ℕ) : mkRat (n : ℤ) 1 = (n : ℚ) := by
  rw [Rat.mkRat_eq_div]
  simp

/-! Scalar statistics on `nan`-free columns. -/

theorem nonNan_map_num (qs : List ℚ) : nonNan (qs.map PVal.num) = qs.map PVal.num := by
  rw [nonNan, List.filter_eq_self]
  intro v hv
  simp only [List.mem_map] at hv
  obtain ⟨q, _, rfl⟩ := hv
  simp

theorem sumPVal_go (qs : List ℚ) :
    ∀ a : ℚ, (qs.map PVal.num).foldl PVal.add (PVal.num a) = PVal.num (a + qs.sum) := by
  induction qs with
  | nil => intro a; simp
  | cons q qs ih =>
    intro a
    simp only [List.map_cons, List.foldl_cons, List.sum_cons]
    rw [pval_add_num, ih (a + q), add_assoc]

theorem sumPVal_map_num (qs : List ℚ) :
    sumPVal (qs.map PVal.num) = PVal.num qs.sum := by
  rw [sumPVal, sumPVal_go qs 0, zero_add]

theorem meanPVal_map_num (qs : List ℚ) (h : qs ≠ []) :
    meanPVal (qs.map PVal.num) = PVal.num (qs.sum / qs.length) := by
  rw [meanPVal]
  simp only [nonNan_map_num]
  rw [if_neg (by simpa using h)]
  rw [sumPVal_map_num, List.length_map, mkRat_one]
  rw [pval_div_num _ _ (by exact_mod_cast List.length_pos.mpr h |>.ne')]

theorem foldl_if_const (g : PVal → PVal → Bool) (q : ℚ) :
    ∀ xs : List PVal, (∀ y ∈ xs, y = PVal.num q) →
      xs.foldl (fun a b => if g a b then a else b) (PVal.num q) = PVal.num q := by
  intro xs
  induction xs with
  | nil => intro _; rfl
  | cons x xs ih =>
    intro h
    rw [List.foldl_cons, h x (List.mem_cons_self x xs)]
    have hb : (if g (PVal.num q) (PVal.num q) then PVal.num q else PVal.num q) =
        PVal.num q := by split <;> rfl
    rw [hb]
    exact ih (fun y hy => h y (List.mem_cons_of_mem x hy))

theorem minPVal_const (n : ℕ) (q : ℚ) (hn : n ≠ 0) :
    minPVal ((List.replicate n q).map PVal.num) = PVal.num q := by
  rw [minPVal]
  rw [nonNan_map_num]
  cases n with
  | zero => omega
  | succ m =>
    simp only [List.replicate_succ, List.map_cons]
    exact foldl_if_const _ q _ (fun y hy => by
      simp only [List.mem_map, List.mem_replicate] at hy
      obtain ⟨x, ⟨_, rfl⟩, rfl⟩ := hy
      rfl)

theorem maxPVal_const (n : ℕ) (q : ℚ) (hn : n ≠ 0) :
    maxPVal ((List.replicate n q).map PVal.num) = PVal.num q := by
  rw [maxPVal]
  rw [nonNan_map_num]
  cases n with
  | zero => omega
  | succ m =>
    simp only [List.replicate_succ, List.map_cons]
    exact foldl_if_const _ q _ (fun y hy => by
      simp only [List.mem_map, List.mem_replicate] at hy
      obtain ⟨x, ⟨_, rfl⟩, rfl⟩ := hy
      rfl)

theorem stdPVal_const (n : ℕ) (q : ℚ) (h2 : 2 ≤ n) :
    stdPVal ((List.replicate n q).map PVal.num) = PVal.num 0 := by
  rw [stdPVal]
  simp only [nonNan_map_num, List.length_map, List.length_replicate]
  rw [if_neg (by omega)]
  have hsum : (List.replicate n q).sum = (n : ℚ) * q := by
    rw [List.sum_replicate, nsmul_eq_mul]
  rw [sumPVal_map_num, hsum, mkRat_one]
  rw [pval_div_num _ _ (by exact_mod_cast (by omega : n ≠ 0))]
  rw [mul_comm, mul_div_assoc, div_self (by exact_mod_cast (by omega : n ≠ 0)),
    mul_one]
  have hmap : ((List.replicate n q).map PVal.num).map
      (fun x => (x.sub (PVal.num q)).mul (x.sub (PVal.num q))) =
      (List.replicate n (0:ℚ)).map PVal.num := by
    rw [List.map_map, List.map_replicate, List.map_replicate]
    simp only [Function.comp]
    rw [pval_sub_num, sub_self, pval_mul_num, mul_zero]
  rw [hmap, sumPVal_map_num, List.sum_replicate, smul_zero]
  rw [pval_div_num _ _ (by
    rw [mkRat_one]
    exact_mod_cast (by omega : n - 1 ≠ 0))]
  rw [zero_div]
  simp only [PVal.sqrtv]
  rw [if_neg (by norm_num), ratSqrt_zero]

theorem getD_of_all_eq {l : List PVal} {a : PVal} (h : ∀ x ∈ l, x = a)
    {i : ℕ} (hi : i < l.length) (d : PVal) : l.getD i d = a := by
  rw [List.getD_eq_getElem?_getD, List.getElem?_eq_getElem hi]
  exact h _ (List.getElem_mem hi)

theorem rat_floor_eq_intFloor (p : ℚ) : p.floor = ⌊p⌋ := by
  rw [Rat.floor_def', Rat.floor_def]

theorem quantilePVal_all_eq (values : List PVal) (q p : ℚ)
    (hall : ∀ x ∈ values, x = PVal.num q) (hne : values ≠ [])
    (hp0 : 0 ≤ p) (hp1 : p < 1) :
    quantilePVal values p = PVal.num q := by
  have hfilter : nonNan values = values := by
    rw [nonNan, List.filter_eq_self]
    intro v hv
    rw [hall v hv]
    simp
  have hvs_all : ∀ x ∈ (nonNan values).insertionSort
      (fun a b => pvalLe a b = true), x = PVal.num q := by
    intro x hx
    rw [List.mem_insertionSort, hfilter] at hx
    exact hall x hx
  have hvs_len : ((nonNan values).insertionSort
      (fun a b => pvalLe a b = true)).length = values.length := by
    rw [List.length_insertionSort, hfilter]
  have hnlen : values.length ≠ 0 := by simpa using hne
  rw [quantilePVal]
  simp only [hvs_len]
  rw [if_neg hnlen]
  have hcast : ((values.length - 1 : ℕ) : ℚ) = (values.length : ℚ) - 1 := by
    have h1 : 1 ≤ values.length := Nat.one_le_iff_ne_zero.mpr hnlen
    have h2 : ((values.length - 1 : ℕ) : ℚ) = (values.length : ℚ) - ((1 : ℕ) : ℚ) :=
      Nat.cast_sub h1
    simpa using h2
  have hposq : qmul p (mkRat ((values.length - 1 : ℕ) : ℤ) 1) =
      p * ((values.length : ℚ) - 1) := by
    rw [qmul_eq, mkRat_one, hcast]
  rw [hposq]
  have hpos0 : 0 ≤ p * ((values.length : ℚ) - 1) := by
    apply mul_nonneg hp0
    have : (1 : ℚ) ≤ (values.length : ℚ) := by
      exact_mod_cast Nat.one_le_iff_ne_zero.mpr hnlen
    linarith
  have hposlt : p * ((values.length : ℚ) - 1) < (values.length : ℚ) := by
    have h1 : (1 : ℚ) ≤ (values.length : ℚ) := by
      exact_mod_cast Nat.one_le_iff_ne_zero.mpr hnlen
    nlinarith
  have hfl0 : 0 ≤ ⌊p * ((values.length : ℚ) - 1)⌋ := Int.floor_nonneg.mpr hpos0
  have hflt : ⌊p * ((values.length : ℚ) - 1)⌋ < (values.length : ℤ) := by
    rw [Int.floor_lt]
    exact_mod_cast hposlt
  have hicast : ((p * ((values.length : ℚ) - 1)).floor.toNat : ℤ) =
      ⌊p * ((values.length : ℚ) - 1)⌋ := by
    rw [rat_floor_eq_intFloor]
    exact Int.toNat_of_nonneg hfl0
  have hilt : (p * ((values.length : ℚ) - 1)).floor.toNat < values.length := by
    omega
  split
  · exact getD_of_all_eq hvs_all (by rw [hvs_len]; exact hilt) _
  · rename_i hfrac
    have hfracq : qsub (p * ((values.length : ℚ) - 1))
        (mkRat ((p * ((values.length : ℚ) - 1)).floor.toNat : ℤ) 1) =
        p * ((values.length : ℚ) - 1) -
          ((p * ((values.length : ℚ) - 1)).floor.toNat : ℚ) := by
      rw [qsub_eq, mkRat_one]
    rw [hfracq] at hfrac
    have hne2 : p * ((values.length : ℚ) - 1) ≠
        ((p * ((values.length : ℚ) - 1)).floor.toNat : ℚ) := by
      intro he
      exact hfrac (sub_eq_zero_of_eq he)
    have hn2 : 2 ≤ values.length := by
      rcases Nat.lt_or_ge values.length 2 with hl | hl
      · exfalso
        have hv1 : values.length = 1 := by omega
        apply hne2
        simp only [hv1, Nat.cast_one, sub_self, mul_zero]
        decide
      · exact hl
    have hposlt2 : p * ((values.length : ℚ) - 1) < (values.length : ℚ) - 1 := by
      have h2 : (2 : ℚ) ≤ (values.length : ℚ) := by exact_mod_cast hn2
      nlinarith
    have hflt2 : ⌊p * ((values.length : ℚ) - 1)⌋ < (values.length : ℤ) - 1 := by
      rw [Int.floor_lt]
      push_cast
      exact_mod_cast hposlt2
    have hilt2 : (p * ((values.length : ℚ) - 1)).floor.toNat + 1 < values.length := by
      omega
    rw [getD_of_all_eq hvs_all (by rw [hvs_len]; exact hilt) _,
      getD_of_all_eq hvs_all (by rw [hvs_len]; exact hilt2) _]
    rw [pval_sub_num, sub_self, pval_mul_num, zero_mul, pval_add_num, add_zero]

theorem pvalNe_num_self (q : ℚ) : pvalNe (PVal.num q) (PVal.num q) = false := by
  simp [pvalNe]

theorem contains_ne_nil {ns : List String} {c : String}
    (hc : ns.contains c = true) : ns ≠ [] := by
  intro h
  rw [h] at hc
  simp at hc

/-- C9 (amended): on every well-formed frame with **at least two rows**
whose column `c` is constant, each of the three normalization methods
`minmax`, `zscore` and `robust` produces a `{c}_normalized` column that
is `0` in every row, with no division-by-zero error.  (On a one-row
frame, `minmax` and `robust` still give `0`, but `zscore` gives `nan`,
because the sample standard deviation of one observation is `nan` and
Python's `nan != 0` is `True` — see the counterexample.) -/
theorem normalize_constant_column_zero (df : DataFrame) (c : String)
    (n : ℕ) (q : ℚ)
    (hwf : df.Wf) (hc : df.colNames.contains c = true)
    (hcol : df.getCol c = (List.replicate n q).map PVal.num)
    (h2 : 2 ≤ n) :
    (normalize_data df "minmax" [c]).getCol (normalizedName c) =
      List.replicate n (PVal.num 0) ∧
    (normalize_data df "zscore" [c]).getCol (normalizedName c) =
      List.replicate n (PVal.num 0) ∧
    (normalize_data df "robust" [c]).getCol (normalizedName c) =
      List.replicate n (PVal.num 0) := by
  have hrows : df.rows.length = n := by
    rw [← getCol_length df c, hcol]
    simp
  have hemp : df.isEmptyFrame = false := by
    rw [DataFrame.isEmptyFrame]
    have h1 : df.rows ≠ [] := by
      intro h
      rw [h] at hrows
      simp at hrows
      omega
    have h2c : df.colNames ≠ [] := contains_ne_nil hc
    simp [List.isEmpty_iff, h1, h2c]
  have hlen : (((List.replicate n q).map PVal.num).map
      (fun _ => PVal.num 0)).length = df.rows.length := by
    simp [hrows]
  have hfinal : ∀ m : String,
      (df.setCol (normalizedName c)
        (((List.replicate n q).map PVal.num).map (fun _ => PVal.num 0))).getCol
        (normalizedName c) = List.replicate n (PVal.num 0) := by
    intro m
    rw [getCol_setCol_self df _ _ hwf hlen]
    rw [List.map_map, List.map_replicate]
    rfl
  have hall : ∀ x ∈ (List.replicate n q).map PVal.num, x = PVal.num q := by
    intro x hx
    simp only [List.mem_map, List.mem_replicate] at hx
    obtain ⟨y, ⟨_, rfl⟩, rfl⟩ := hx
    rfl
  have hnonnil : (List.replicate n q).map PVal.num ≠ [] := by
    simp only [ne_eq, List.map_eq_nil_iff, List.replicate_eq_nil_iff]
    omega
  refine ⟨?_, ?_, ?_⟩
  · rw [normalize_data, if_neg (by simp [hemp])]
    simp only [List.foldl_cons, List.foldl_nil]
    rw [normalizeCol, if_pos hc, if_pos rfl, hcol]
    rw [minPVal_const n q (by omega), maxPVal_const n q (by omega)]
    simp only [pvalNe_num_self, Bool.false_eq_true, if_false]
    exact hfinal "minmax"
  · rw [normalize_data, if_neg (by simp [hemp])]
    simp only [List.foldl_cons, List.foldl_nil]
    rw [normalizeCol, if_pos hc, if_neg (by decide), if_pos rfl, hcol]
    rw [stdPVal_const n q h2]
    simp only [pvalNe_num_self, Bool.false_eq_true, if_false]
    exact hfinal "zscore"
  · rw [normalize_data, if_neg (by simp [hemp])]
    simp only [List.foldl_cons, List.foldl_nil]
    rw [normalizeCol, if_pos hc, if_neg (by decide), if_neg (by decide),
      if_pos rfl, hcol]
    rw [quantilePVal_all_eq _ q (1/4) hall hnonnil (by norm_num) (by norm_num),
      quantilePVal_all_eq _ q (3/4) hall hnonnil (by norm_num) (by norm_num)]
    simp only [pval_sub_num, sub_self, pvalNe_num_self, Bool.false_eq_true,
      if_false]
    exact hfinal "robust"

theorem normalize_constant_column_zero_witness :
    (DataFrame.mk ["v"] [[PVal.num 5], [PVal.num 5]]).Wf ∧
    (DataFrame.mk ["v"] [[PVal.num 5], [PVal.num 5]]).getCol "v" =
      (List.replicate 2 (5:ℚ)).map PVal.num ∧
    (normalize_data ⟨["v"], [[PVal.num 5], [PVal.num 5]]⟩ "zscore" ["v"]).getCol
      (normalizedName "v") = List.replicate 2 (PVal.num 0) :=
  ⟨by decide, by decide,
   (normalize_constant_column_zero ⟨["v"], [[PVal.num 5], [PVal.num 5]]⟩ "v" 2 5
     (by decide) (by decide) (by decide) (by omega)).2.1⟩

theorem contains_setCol_self (df : DataFrame) (c2 : String) (vs : List PVal) :
    (df.setCol c2 vs).colNames.contains c2 = true := by
  rw [DataFrame.setCol]
  cases hidx : df.colIdx c2 with
  | some i =>
    apply List.elem_eq_true_of_mem
    by_contra hmem
    rw [← idxOfCol_eq_none_iff] at hmem
    rw [DataFrame.colIdx] at hidx
    rw [hmem] at hidx
    cases hidx
  | none =>
    apply List.elem_eq_true_of_mem
    simp

theorem strEndsWith_append (c s : String) : strEndsWith (c ++ s) s = true := by
  rw [strEndsWith, String.data_append, List.isSuffixOf_iff_suffix]
  exact List.suffix_append c.data s.data

theorem filter_isEmpty_false_of_mem {l : List String} {p : String → Bool}
    {x : String} (hx : x ∈ l) (hp : p x = true) :
    (l.filter p).isEmpty = false := by
  have hmem : x ∈ l.filter p := List.mem_filter.mpr ⟨hx, hp⟩
  simpa using List.ne_nil_of_mem hmem

/-- C2 (amended): calling `detect_anomalies` with any method name other
than `iqr` or `zscore` logs a warning and silently applies a default:
the `{col}_anomaly` indicator is filled with `0` for every row (and
`total_anomalies` is added); no `UnsupportedMethodError` is raised — no
such exception class exists in the code base. -/
theorem detect_anomalies_unknown_method_zero_column (df : DataFrame)
    (c method : String) (threshold : ℚ)
    (hwf : df.Wf) (hne : df.isEmptyFrame = false)
    (hc : df.colNames.contains c = true)
    (hm1 : method ≠ "iqr") (hm2 : method ≠ "zscore") :
    (detect_anomalies df [c] method threshold).getCol (anomalyName c) =
      List.replicate df.rows.length (PVal.num 0) := by
  rw [detect_anomalies, if_neg (by simp [hne])]
  simp only [List.foldl_cons, List.foldl_nil]
  rw [detectCol, if_pos hc, if_neg hm1, if_neg hm2]
  have hvslen : ((df.getCol c).map (fun _ => PVal.num 0)).length = df.rows.length := by
    simp [getCol_length]
  have hdcwf := wf_setCol df (anomalyName c) _ hwf hvslen
  have hdclen := rows_setCol_length df (anomalyName c) _ hvslen
  have hmem : anomalyName c ∈
      (df.setCol (anomalyName c) ((df.getCol c).map (fun _ => PVal.num 0))).colNames :=
    List.mem_of_elem_eq_true (contains_setCol_self df (anomalyName c) _)
  have hfilter : (((df.setCol (anomalyName c)
      ((df.getCol c).map (fun _ => PVal.num 0))).colNames).filter
      (fun c2 => strEndsWith c2 "_anomaly")).isEmpty = false :=
    filter_isEmpty_false_of_mem hmem (strEndsWith_append c "_anomaly")
  simp only [hfilter, Bool.false_eq_true, if_false]
  rw [getCol_setCol_ne _ (anomalyName c) "total_anomalies" _ hdcwf (by simp [hdclen])
    (str_ne_of_last c "_anomaly" "total_anomalies" (by decide) (by decide))]
  rw [getCol_setCol_self df _ _ hwf hvslen]
  rw [List.map_const', getCol_length]

theorem detect_anomalies_unknown_method_zero_column_witness :
    (DataFrame.mk ["v"] [[PVal.num 1], [PVal.num 2]]).Wf ∧
    (DataFrame.mk ["v"] [[PVal.num 1], [PVal.num 2]]).isEmptyFrame = false ∧
    (DataFrame.mk ["v"] [[PVal.num 1], [PVal.num 2]]).colNames.contains "v" = true ∧
    (detect_anomalies ⟨["v"], [[PVal.num 1], [PVal.num 2]]⟩ ["v"] "bogus" (3/2)).getCol
      (anomalyName "v") = List.replicate 2 (PVal.num 0) :=
  ⟨by decide, by decide, by decide,
   detect_anomalies_unknown_method_zero_column ⟨["v"], [[PVal.num 1], [PVal.num 2]]⟩
     "v" "bogus" (3/2) (by decide) (by decide) (by decide)
     (by decide) (by decide)⟩

/-! Series lemmas. -/

theorem rollingMean_length (xs : List PVal) (w : ℕ) :
    (rollingMean xs w).length = xs.length := by simp [rollingMean]

theorem rollingStd_length (xs : List PVal) (w : ℕ) :
    (rollingStd xs w).length = xs.length := by simp [rollingStd]

theorem pctChange_length (xs : List PVal) :
    (pctChange xs).length = xs.length := by simp [pctChange]

theorem growthRate_length (xs : List PVal) (w : ℕ) :
    (growthRate xs w).length = xs.length := by simp [growthRate]

theorem map_range_getD {α : Type} (f : ℕ → α) (n t : ℕ) (d : α) (ht : t < n) :
    ((List.range n).map f).getD t d = f t := by
  rw [List.getD_eq_getElem?_getD, List.getElem?_map, List.getElem?_range ht]
  rfl

theorem getD_map_num (qs : List ℚ) (t : ℕ) (ht : t < qs.length) :
    (qs.map PVal.num).getD t PVal.nan = PVal.num (qs.getD t 0) := by
  rw [List.getD_eq_getElem?_getD, List.getElem?_map, List.getD_eq_getElem?_getD]
  cases hq : qs[t]? with
  | none =>
    rw [List.getElem?_eq_none_iff] at hq
    omega
  | some q => rfl

theorem ffillFrom_of_no_nan :
    ∀ (xs : List PVal) (last : PVal), (∀ x ∈ xs, x ≠ PVal.nan) →
      ffillFrom last xs = xs := by
  intro xs
  induction xs with
  | nil => intro last _; rfl
  | cons x xs ih =>
    intro last h
    rw [ffillFrom]
    simp only [if_neg (h x (List.mem_cons_self x xs))]
    rw [ih x (fun y hy => h y (List.mem_cons_of_mem x hy))]

theorem no_nan_map_num (qs : List ℚ) : ∀ x ∈ qs.map PVal.num, x ≠ PVal.nan := by
  intro x hx
  simp only [List.mem_map] at hx
  obtain ⟨q, _, rfl⟩ := hx
  simp

theorem pval_div_nan_right (a : PVal) : a.div PVal.nan = PVal.nan := by
  cases a <;> rfl

theorem pval_nan_sub (b : PVal) : PVal.nan.sub b = PVal.nan := by
  cases b <;> rfl

theorem pval_nan_mul (b : PVal) : PVal.nan.mul b = PVal.nan := by
  cases b <;> rfl

theorem pval_div_zero_zero : (PVal.num 0).div (PVal.num 0) = PVal.nan := by
  simp [PVal.div]

theorem roundQ_zero (n : ℕ) : roundQ n 0 = 0 := by
  rw [roundQ, qmul_eq, zero_mul, qdiv_eq,
    show roundHalfEven 0 = 0 by decide]
  rw [Rat.mkRat_eq_div]
  norm_num

/-! The derived column names of `calculate_trends` are pairwise
distinct and distinct from the source column. -/

theorem growthName_ne_volName (c : String) (w : ℕ) :
    growthName c w ≠ volName c :=
  str_append_ne_of_data_ne c
    (str_data_ne_of_head "_growth_" (toString w ++ "d") "_volatility"
      (by decide) (by decide))

theorem growthName_ne_dirName (c : String) (w : ℕ) :
    growthName c w ≠ dirName c :=
  str_append_ne_of_data_ne c
    (str_data_ne_of_head "_growth_" (toString w ++ "d") "_trend_direction"
      (by decide) (by decide))

theorem pctName_ne_growthName (c : String) (w : ℕ) :
    pctName c ≠ growthName c w :=
  (str_append_ne_of_data_ne c
    (str_data_ne_of_head "_growth_" (toString w ++ "d") "_pct_change"
      (by decide) (by decide))).symm

theorem pctName_ne_volName (c : String) : pctName c ≠ volName c :=
  str_append_ne_of_data_ne c (by decide)

theorem pctName_ne_dirName (c : String) : pctName c ≠ dirName c :=
  str_append_ne_of_data_ne c (by decide)

theorem volName_ne_dirName (c : String) : volName c ≠ dirName c :=
  str_append_ne_of_data_ne c (by decide)

/-- On a frame with no `date` column, `calculate_trends` over a single
value column is exactly one `calcTrendsCol` pass (no sort happens). -/
theorem calculate_trends_single (df : DataFrame) (c : String) (w : ℕ)
    (hne : df.isEmptyFrame = false)
    (hdate : df.colNames.contains "date" = false) :
    calculate_trends df [c] w = calcTrendsCol w df c := by
  rw [calculate_trends, if_neg (by simp [hne])]
  simp only [hdate, Bool.false_eq_true, if_false, List.foldl_cons, List.foldl_nil]

/-- C4 (amended): on a well-formed frame whose column `c` holds the
rational series `qs` with at least `window` rows, the
`{c}_growth_{w}d` column satisfies: rows before the window threshold
are `0`; at `t ≥ w` with a nonzero denominator the value is
`round((value[t]/value[t-w] - 1) * 100, 2)`; the null arising from a
`0/0` is coerced to `0` — but a zero denominator under a **nonzero**
numerator yields an infinity that `fillna(0)` does not coerce (see the
counterexample). -/
theorem growth_rate_formula (df : DataFrame) (c : String) (w : ℕ) (qs : List ℚ)
    (hwf : df.Wf) (hne : df.isEmptyFrame = false)
    (hdate : df.colNames.contains "date" = false)
    (hc : df.colNames.contains c = true)
    (hcol : df.getCol c = qs.map PVal.num)
    (hlenw : w ≤ qs.length) :
    ((calculate_trends df [c] w).getCol (growthName c w)).length = qs.length ∧
    (∀ t, t < w →
      ((calculate_trends df [c] w).getCol (growthName c w)).getD t PVal.nan =
        PVal.num 0) ∧
    (∀ t, w ≤ t → t < qs.length → qs.getD (t - w) 0 ≠ 0 →
      ((calculate_trends df [c] w).getCol (growthName c w)).getD t PVal.nan =
        PVal.num (roundQ 2 ((qs.getD t 0 / qs.getD (t - w) 0 - 1) * 100))) ∧
    (∀ t, w ≤ t → t < qs.length → qs.getD (t - w) 0 = 0 → qs.getD t 0 = 0 →
      ((calculate_trends df [c] w).getCol (growthName c w)).getD t PVal.nan =
        PVal.num 0) := by
  rw [calculate_trends_single df c w hne hdate]
  simp only [calcTrendsCol, hc, if_true, hcol, List.length_map]
  rw [if_pos hlenw]
  have hrows : df.rows.length = qs.length := by
    rw [← getCol_length df c, hcol]
    simp
  set A := (rollingMean (qs.map PVal.num) w).map (PVal.roundTo 2) with hA
  set B := (rollingStd (qs.map PVal.num) w).map (PVal.roundTo 2) with hB
  set C := (pctChange (qs.map PVal.num)).map
    (fun v => (v.fillna (PVal.num 0)).roundTo 4) with hC
  set G := (growthRate (qs.map PVal.num) w).map
    (fun v => (v.fillna (PVal.num 0)).roundTo 2) with hG
  set V := List.zipWith
    (fun s m => (((s.div m).mul (PVal.num 100)).fillna (PVal.num 0)).roundTo 2)
    (rollingStd (qs.map PVal.num) w) (rollingMean (qs.map PVal.num) w) with hV
  set d1 := df.setCol (maName c w) A with hd1
  set d2 := d1.setCol (stdName c w) B with hd2
  set d3 := d2.setCol (pctName c) C with hd3
  set d4 := d3.setCol (growthName c w) G with hd4
  set d5 := d4.setCol (volName c) V with hd5
  have hAlen : A.length = df.rows.length := by
    rw [hA, hrows]
    simp [rollingMean_length]
  have h1wf : d1.Wf := wf_setCol _ _ _ hwf hAlen
  have h1rows : d1.rows.length = df.rows.length := rows_setCol_length _ _ _ hAlen
  have hBlen : B.length = d1.rows.length := by
    rw [hB, h1rows, hrows]
    simp [rollingStd_length]
  have h2wf : d2.Wf := wf_setCol _ _ _ h1wf hBlen
  have h2rows : d2.rows.length = d1.rows.length := rows_setCol_length _ _ _ hBlen
  have hClen : C.length = d2.rows.length := by
    rw [hC, h2rows, h1rows, hrows]
    simp [pctChange_length]
  have h3wf : d3.Wf := wf_setCol _ _ _ h2wf hClen
  have h3rows : d3.rows.length = d2.rows.length := rows_setCol_length _ _ _ hClen
  have hGlen : G.length = d3.rows.length := by
    rw [hG, h3rows, h2rows, h1rows, hrows]
    simp [growthRate_length]
  have h4wf : d4.Wf := wf_setCol _ _ _ h3wf hGlen
  have h4rows : d4.rows.length = d3.rows.length := rows_setCol_length _ _ _ hGlen
  have hVlen : V.length = d4.rows.length := by
    rw [hV, h4rows, h3rows, h2rows, h1rows, hrows]
    simp [rollingStd_length, rollingMean_length]
  have h5wf : d5.Wf := wf_setCol _ _ _ h4wf hVlen
  have h5rows : d5.rows.length = d4.rows.length := rows_setCol_length _ _ _ hVlen
  have hmain : ∀ dir2 : List PVal, dir2.length = d5.rows.length →
      (d5.setCol (dirName c) dir2).getCol (growthName c w) = G := by
    intro dir2 hdir2
    rw [getCol_setCol_ne d5 _ _ _ h5wf hdir2 (growthName_ne_dirName c w)]
    rw [hd5, getCol_setCol_ne d4 _ _ _ h4wf hVlen (growthName_ne_volName c w)]
    rw [hd4, getCol_setCol_self d3 _ _ h3wf hGlen]
  rw [hmain _ (by simp [getCol_length])]
  have hGt : ∀ t, t < qs.length → G.getD t PVal.nan =
      ((((((qs.map PVal.num).getD t PVal.nan).div
        (if t < w then PVal.nan else (qs.map PVal.num).getD (t - w) PVal.nan)).sub
        (PVal.num 1)).mul (PVal.num 100)).fillna (PVal.num 0)).roundTo 2 := by
    intro t ht
    rw [hG, growthRate, List.map_map]
    rw [map_range_getD _ _ t _ (by simpa using ht)]
    rfl
  refine ⟨?_, ?_, ?_, ?_⟩
  · rw [hG]
    simp [growthRate_length]
  · intro t ht
    rw [hGt t (lt_of_lt_of_le ht hlenw), if_pos ht, pval_div_nan_right,
      pval_nan_sub, pval_nan_mul, fillna_nan, roundTo_num, roundQ_zero]
  · intro t htw ht hb
    rw [hGt t ht, if_neg (not_lt.mpr htw), getD_map_num qs t ht,
      getD_map_num qs (t - w) (by omega), pval_div_num _ _ hb, pval_sub_num,
      pval_mul_num, fillna_num, roundTo_num]
  · intro t htw ht hb ha
    rw [hGt t ht, if_neg (not_lt.mpr htw), getD_map_num qs t ht,
      getD_map_num qs (t - w) (by omega), hb, ha, pval_div_zero_zero,
      pval_nan_sub, pval_nan_mul, fillna_nan, roundTo_num, roundQ_zero]

theorem growth_rate_formula_witness :
    (DataFrame.mk ["v"] [[PVal.num 4], [PVal.num 2], [PVal.num 3]]).Wf ∧
    (2 : ℕ) ≤ ([ (4:ℚ), 2, 3 ] : List ℚ).length ∧
    ((calculate_trends ⟨["v"], [[PVal.num 4], [PVal.num 2], [PVal.num 3]]⟩
        ["v"] 2).getCol (growthName "v" 2)).getD 2 PVal.nan =
      PVal.num (roundQ 2 ((3 / 4 - 1) * 100)) :=
  ⟨by decide, by decide,
   (growth_rate_formula ⟨["v"], [[PVal.num 4], [PVal.num 2], [PVal.num 3]]⟩
     "v" 2 [4, 2, 3] (by decide) (by decide) (by decide) (by decide) (by decide)
     (by decide)).2.2.1 2 (by omega) (by decide) (by norm_num)⟩

theorem ffill_map_num (qs : List ℚ) : ffill (qs.map PVal.num) = qs.map PVal.num :=
  ffillFrom_of_no_nan _ _ (no_nan_map_num qs)

/-- C8 (amended): on a well-formed frame whose column `c` holds the
rational series `qs`, the `{c}_pct_change` column is exactly `0` (not
null) at row 0; at `t ≥ 1` with `value[t-1] ≠ 0` it is
`round((value[t] − value[t-1]) / value[t-1], 4)`; the null arising from
`0/0` is coerced to `0` — but a zero predecessor under a nonzero
current value yields an infinity that `fillna(0)` does not coerce (see
the counterexample). -/
theorem pct_change_formula (df : DataFrame) (c : String) (w : ℕ) (qs : List ℚ)
    (hwf : df.Wf) (hne : df.isEmptyFrame = false)
    (hdate : df.colNames.contains "date" = false)
    (hc : df.colNames.contains c = true)
    (hcol : df.getCol c = qs.map PVal.num)
    (hq0 : qs ≠ []) :
    ((calculate_trends df [c] w).getCol (pctName c)).length = qs.length ∧
    ((calculate_trends df [c] w).getCol (pctName c)).getD 0 PVal.nan =
      PVal.num 0 ∧
    (∀ t, 1 ≤ t → t < qs.length → qs.getD (t - 1) 0 ≠ 0 →
      ((calculate_trends df [c] w).getCol (pctName c)).getD t PVal.nan =
        PVal.num (roundQ 4 ((qs.getD t 0 - qs.getD (t - 1) 0) / qs.getD (t - 1) 0))) ∧
    (∀ t, 1 ≤ t → t < qs.length → qs.getD (t - 1) 0 = 0 → qs.getD t 0 = 0 →
      ((calculate_trends df [c] w).getCol (pctName c)).getD t PVal.nan =
        PVal.num 0) := by
  rw [calculate_trends_single df c w hne hdate]
  simp only [calcTrendsCol, hc, if_true, hcol, List.length_map]
  have hrows : df.rows.length = qs.length := by
    rw [← getCol_length df c, hcol]
    simp
  set A := (rollingMean (qs.map PVal.num) w).map (PVal.roundTo 2) with hA
  set B := (rollingStd (qs.map PVal.num) w).map (PVal.roundTo 2) with hB
  set C := (pctChange (qs.map PVal.num)).map
    (fun v => (v.fillna (PVal.num 0)).roundTo 4) with hC
  set G := (growthRate (qs.map PVal.num) w).map
    (fun v => (v.fillna (PVal.num 0)).roundTo 2) with hG
  set V := List.zipWith
    (fun s m => (((s.div m).mul (PVal.num 100)).fillna (PVal.num 0)).roundTo 2)
    (rollingStd (qs.map PVal.num) w) (rollingMean (qs.map PVal.num) w) with hV
  set d1 := df.setCol (maName c w) A with hd1
  set d2 := d1.setCol (stdName c w) B with hd2
  set d3 := d2.setCol (pctName c) C with hd3
  set d4 := d3.setCol (growthName c w) G with hd4
  set d5 := d4.setCol (volName c) V with hd5
  have hAlen : A.length = df.rows.length := by
    rw [hA, hrows]
    simp [rollingMean_length]
  have h1wf : d1.Wf := wf_setCol _ _ _ hwf hAlen
  have h1rows : d1.rows.length = df.rows.length := rows_setCol_length _ _ _ hAlen
  have hBlen : B.length = d1.rows.length := by
    rw [hB, h1rows, hrows]
    simp [rollingStd_length]
  have h2wf : d2.Wf := wf_setCol _ _ _ h1wf hBlen
  have h2rows : d2.rows.length = d1.rows.length := rows_setCol_length _ _ _ hBlen
  have hClen : C.length = d2.rows.length := by
    rw [hC, h2rows, h1rows, hrows]
    simp [pctChange_length]
  have h3wf : d3.Wf := wf_setCol _ _ _ h2wf hClen
  have h3rows : d3.rows.length = d2.rows.length := rows_setCol_length _ _ _ hClen
  have hGlen : G.length = d3.rows.length := by
    rw [hG, h3rows, h2rows, h1rows, hrows]
    simp [growthRate_length]
  have h4wf : d4.Wf := wf_setCol _ _ _ h3wf hGlen
  have h4rows : d4.rows.length = d3.rows.length := rows_setCol_length _ _ _ hGlen
  have hVlen4 : V.length = d4.rows.length := by
    rw [hV, h4rows, h3rows, h2rows, h1rows, hrows]
    simp [rollingStd_length, rollingMean_length]
  have hVlen3 : V.length = d3.rows.length := by
    rw [hV, h3rows, h2rows, h1rows, hrows]
    simp [rollingStd_length, rollingMean_length]
  have h5wf : d5.Wf := wf_setCol _ _ _ h4wf hVlen4
  have hClen2 : C.length = qs.length := by
    rw [hC]
    simp [pctChange_length]
  have hCt : ∀ t, t < qs.length → C.getD t PVal.nan =
      ((if t = 0 then PVal.nan else
        (((qs.map PVal.num).getD t PVal.nan).div
          ((qs.map PVal.num).getD (t - 1) PVal.nan)).sub
        (PVal.num 1)).fillna (PVal.num 0)).roundTo 4 := by
    intro t ht
    rw [hC, pctChange]
    simp only [ffill_map_num]
    rw [List.map_map, map_range_getD _ _ t _ (by simpa using ht)]
    rfl
  have hgoal2 : C.getD 0 PVal.nan = PVal.num 0 := by
    rw [hCt 0 (List.length_pos.mpr hq0), if_pos rfl, fillna_nan, roundTo_num,
      roundQ_zero]
  have hgoal3 : ∀ t, 1 ≤ t → t < qs.length → qs.getD (t - 1) 0 ≠ 0 →
      C.getD t PVal.nan =
        PVal.num (roundQ 4 ((qs.getD t 0 - qs.getD (t - 1) 0) / qs.getD (t - 1) 0)) := by
    intro t ht1 ht hb
    rw [hCt t ht, if_neg (by omega), getD_map_num qs t ht,
      getD_map_num qs (t - 1) (by omega), pval_div_num _ _ hb, pval_sub_num,
      fillna_num, roundTo_num, div_sub_one hb]
  have hgoal4 : ∀ t, 1 ≤ t → t < qs.length → qs.getD (t - 1) 0 = 0 →
      qs.getD t 0 = 0 → C.getD t PVal.nan = PVal.num 0 := by
    intro t ht1 ht hb ha
    rw [hCt t ht, if_neg (by omega), getD_map_num qs t ht,
      getD_map_num qs (t - 1) (by omega), hb, ha, pval_div_zero_zero,
      pval_nan_sub, fillna_nan, roundTo_num, roundQ_zero]
  by_cases hwl : w ≤ qs.length
  · rw [if_pos hwl]
    have hmain : ∀ dir2 : List PVal, dir2.length = d5.rows.length →
        (d5.setCol (dirName c) dir2).getCol (pctName c) = C := by
      intro dir2 hdir2
      rw [getCol_setCol_ne d5 _ _ _ h5wf hdir2 (pctName_ne_dirName c)]
      rw [hd5, getCol_setCol_ne d4 _ _ _ h4wf hVlen4 (pctName_ne_volName c)]
      rw [hd4, getCol_setCol_ne d3 _ _ _ h3wf hGlen (pctName_ne_growthName c w)]
      rw [hd3, getCol_setCol_self d2 _ _ h2wf hClen]
    rw [hmain _ (by simp [getCol_length])]
    exact ⟨hClen2, hgoal2, hgoal3, hgoal4⟩
  · rw [if_neg hwl]
    have h5wfb : (d3.setCol (volName c) V).Wf := wf_setCol _ _ _ h3wf hVlen3
    have hmain : ∀ dir2 : List PVal,
        dir2.length = (d3.setCol (volName c) V).rows.length →
        ((d3.setCol (volName c) V).setCol (dirName c) dir2).getCol (pctName c) =
          C := by
      intro dir2 hdir2
      rw [getCol_setCol_ne _ _ _ _ h5wfb hdir2 (pctName_ne_dirName c)]
      rw [getCol_setCol_ne d3 _ _ _ h3wf hVlen3 (pctName_ne_volName c)]
      rw [hd3, getCol_setCol_self d2 _ _ h2wf hClen]
    rw [hmain _ (by simp [getCol_length])]
    exact ⟨hClen2, hgoal2, hgoal3, hgoal4⟩

theorem pct_change_formula_witness :
    (DataFrame.mk ["v"] [[PVal.num 4], [PVal.num 5]]).Wf ∧
    ([ (4:ℚ), 5 ] : List ℚ) ≠ [] ∧
    ((calculate_trends ⟨["v"], [[PVal.num 4], [PVal.num 5]]⟩ ["v"] 7).getCol
        (pctName "v")).getD 0 PVal.nan = PVal.num 0 ∧
    ((calculate_trends ⟨["v"], [[PVal.num 4], [PVal.num 5]]⟩ ["v"] 7).getCol
        (pctName "v")).getD 1 PVal.nan = PVal.num (roundQ 4 ((5 - 4) / 4)) :=
  ⟨by decide, by decide,
   (pct_change_formula ⟨["v"], [[PVal.num 4], [PVal.num 5]]⟩ "v" 7 [4, 5]
     (by decide) (by decide) (by decide) (by decide) (by decide)
     (by decide)).2.1,
   (pct_change_formula ⟨["v"], [[PVal.num 4], [PVal.num 5]]⟩ "v" 7 [4, 5]
     (by decide) (by decide) (by decide) (by decide) (by decide)
     (by decide)).2.2.1 1 (by omega) (by decide) (by norm_num)⟩

theorem pval_nan_div (b : PVal) : PVal.nan.div b = PVal.nan := by
  cases b <;> rfl

theorem sum_sq_nonneg (ws : List ℚ) (m : ℚ) :
    0 ≤ (ws.map (fun x => (x - m) * (x - m))).sum := by
  apply List.sum_nonneg
  intro x hx
  simp only [List.mem_map] at hx
  obtain ⟨y, _, rfl⟩ := hx
  exact mul_self_nonneg _

theorem sum_nonneg_eq_zero {l : List ℚ} (h : ∀ x ∈ l, 0 ≤ x) (hs : l.sum = 0) :
    ∀ x ∈ l, x = 0 := by
  induction l with
  | nil => intro x hx; cases hx
  | cons a l ih =>
    rw [List.sum_cons] at hs
    have ha : 0 ≤ a := h a (List.mem_cons_self a l)
    have hrest : 0 ≤ l.sum :=
      List.sum_nonneg (fun x hx => h x (List.mem_cons_of_mem a hx))
    have ha0 : a = 0 := by linarith
    have hl0 : l.sum = 0 := by linarith
    intro x hx
    rcases List.mem_cons.mp hx with rfl | hx
    · exact ha0
    · exact ih (fun y hy => h y (List.mem_cons_of_mem a hy)) hl0 x hx

theorem stdPVal_map_num (ws : List ℚ) (h2 : 2 ≤ ws.length) :
    stdPVal (ws.map PVal.num) = PVal.num (ratSqrt
      ((ws.map (fun x =>
        (x - ws.sum / (ws.length : ℚ)) * (x - ws.sum / (ws.length : ℚ)))).sum /
        ((ws.length - 1 : ℕ) : ℚ))) := by
  rw [stdPVal]
  simp only [nonNan_map_num, List.length_map]
  rw [if_neg (by omega)]
  have hn0 : ((ws.length : ℚ)) ≠ 0 := by
    exact_mod_cast (by omega : ws.length ≠ 0)
  have hn1 : (((ws.length - 1 : ℕ) : ℚ)) ≠ 0 := by
    exact_mod_cast (by omega : ws.length - 1 ≠ 0)
  rw [sumPVal_map_num, mkRat_one, pval_div_num _ _ hn0]
  have hmap : (ws.map PVal.num).map
      (fun x => (x.sub (PVal.num (ws.sum / (ws.length : ℚ)))).mul
        (x.sub (PVal.num (ws.sum / (ws.length : ℚ))))) =
      (ws.map (fun x =>
        (x - ws.sum / (ws.length : ℚ)) * (x - ws.sum / (ws.length : ℚ)))).map
        PVal.num := by
    rw [List.map_map, List.map_map]
    apply List.map_congr_left
    intro a _
    simp only [Function.comp]
    rw [pval_sub_num, pval_mul_num]
  rw [hmap, sumPVal_map_num, mkRat_one, pval_div_num _ _ hn1]
  rw [PVal.sqrtv]
  rw [if_neg (not_lt.mpr (div_nonneg (sum_sq_nonneg ws _) (by positivity)))]

theorem windowAt_map_num (qs : List ℚ) (w t : ℕ) :
    windowAt (qs.map PVal.num) w t = ((qs.take (t + 1)).drop (t + 1 - w)).map
      PVal.num := by
  rw [windowAt, ← List.map_take, ← List.map_drop]

theorem window_length (qs : List ℚ) (w t : ℕ) (ht : t < qs.length) :
    ((qs.take (t + 1)).drop (t + 1 - w)).length = min w (t + 1) := by
  rw [List.length_drop, List.length_take]
  omega

theorem window_mem_sub (qs : List ℚ) (w t : ℕ) :
    ∀ x ∈ (qs.take (t + 1)).drop (t + 1 - w), x ∈ qs := by
  intro x hx
  exact List.mem_of_mem_take (List.mem_of_mem_drop hx)

theorem zipWith_getD (f : PVal → PVal → PVal) :
    ∀ (l1 l2 : List PVal) (t : ℕ), t < l1.length → t < l2.length →
      (List.zipWith f l1 l2).getD t PVal.nan =
        f (l1.getD t PVal.nan) (l2.getD t PVal.nan) := by
  intro l1
  induction l1 with
  | nil => intro l2 t h1 _; simp at h1
  | cons a l1 ih =>
    intro l2 t h1 h2
    cases l2 with
    | nil => simp at h2
    | cons b l2 =>
      cases t with
      | zero => rfl
      | succ t =>
        simp only [List.zipWith_cons_cons, List.getD_cons_succ]
        exact ih l2 t (by simpa using h1) (by simpa using h2)

theorem rollingMean_getD (xs : List PVal) (w t : ℕ) (ht : t < xs.length) :
    (rollingMean xs w).getD t PVal.nan = meanPVal (windowAt xs w t) := by
  rw [rollingMean, map_range_getD _ _ t _ ht]

theorem rollingStd_getD (xs : List PVal) (w t : ℕ) (ht : t < xs.length) :
    (rollingStd xs w).getD t PVal.nan = stdPVal (windowAt xs w t) := by
  rw [rollingStd, map_range_getD _ _ t _ ht]

theorem volatility_entry (qs : List ℚ) (w t : ℕ) (hw : 1 ≤ w)
    (ht : t < qs.length) (hnonneg : ∀ x ∈ qs, 0 ≤ x) :
    (∃ r : ℚ, (List.zipWith
      (fun s m => (((s.div m).mul (PVal.num 100)).fillna (PVal.num 0)).roundTo 2)
      (rollingStd (qs.map PVal.num) w) (rollingMean (qs.map PVal.num) w)).getD t
        PVal.nan = PVal.num r) ∧
    (meanPVal (windowAt (qs.map PVal.num) w t) = PVal.num 0 →
      (List.zipWith
        (fun s m => (((s.div m).mul (PVal.num 100)).fillna (PVal.num 0)).roundTo 2)
        (rollingStd (qs.map PVal.num) w) (rollingMean (qs.map PVal.num) w)).getD t
          PVal.nan = PVal.num 0) := by
  have htx : t < (qs.map PVal.num).length := by simpa using ht
  have hentry : (List.zipWith
      (fun s m => (((s.div m).mul (PVal.num 100)).fillna (PVal.num 0)).roundTo 2)
      (rollingStd (qs.map PVal.num) w) (rollingMean (qs.map PVal.num) w)).getD t
        PVal.nan =
      ((((stdPVal (windowAt (qs.map PVal.num) w t)).div
        (meanPVal (windowAt (qs.map PVal.num) w t))).mul
        (PVal.num 100)).fillna (PVal.num 0)).roundTo 2 := by
    rw [zipWith_getD _ _ _ t (by simp [rollingStd_length, ht])
      (by simp [rollingMean_length, ht])]
    rw [rollingStd_getD _ _ _ htx, rollingMean_getD _ _ _ htx]
  rw [hentry]
  rw [windowAt_map_num]
  set ws := (qs.take (t + 1)).drop (t + 1 - w) with hws
  have hlen : ws.length = min w (t + 1) := window_length qs w t ht
  have hlenpos : 1 ≤ ws.length := by omega
  have hwne : ws ≠ [] := by
    intro h
    rw [h] at hlenpos
    simp at hlenpos
  have hnn : ∀ x ∈ ws, 0 ≤ x := fun x hx => hnonneg x (window_mem_sub qs w t x hx)
  have hmean : meanPVal (ws.map PVal.num) = PVal.num (ws.sum / (ws.length : ℚ)) :=
    meanPVal_map_num ws hwne
  by_cases hn1 : ws.length = 1
  · have hstd : stdPVal (ws.map PVal.num) = PVal.nan := by
      rw [stdPVal]
      simp only [nonNan_map_num, List.length_map]
      rw [if_pos (by omega)]
    rw [hstd, pval_nan_div, pval_nan_mul, fillna_nan, roundTo_num, roundQ_zero]
    exact ⟨⟨0, rfl⟩, fun _ => rfl⟩
  · have h2 : 2 ≤ ws.length := by omega
    have hstd := stdPVal_map_num ws h2
    by_cases hm0 : ws.sum / (ws.length : ℚ) = 0
    · have hsum : ws.sum = 0 := by
        rcases div_eq_zero_iff.mp hm0 with h | h
        · exact h
        · exfalso
          exact (by exact_mod_cast (by omega : ws.length ≠ 0) :
            ((ws.length : ℚ)) ≠ 0) h
      have hall := sum_nonneg_eq_zero hnn hsum
      have hS : (ws.map (fun x =>
          (x - ws.sum / (ws.length : ℚ)) * (x - ws.sum / (ws.length : ℚ)))).sum
          = 0 := by
        have hmapz : ws.map (fun x =>
            (x - ws.sum / (ws.length : ℚ)) * (x - ws.sum / (ws.length : ℚ))) =
            ws.map (fun _ => (0 : ℚ)) := by
          apply List.map_congr_left
          intro a ha
          rw [hall a ha, hm0]
          ring
        rw [hmapz, List.map_const', List.sum_replicate, smul_zero]
      rw [hstd, hS, zero_div, ratSqrt_zero, hmean, hm0, pval_div_zero_zero,
        pval_nan_mul, fillna_nan, roundTo_num, roundQ_zero]
      exact ⟨⟨0, rfl⟩, fun _ => rfl⟩
    · rw [hstd, hmean, pval_div_num _ _ hm0, pval_mul_num, fillna_num,
        roundTo_num]
      constructor
      · exact ⟨_, rfl⟩
      · intro hmz
        exfalso
        injection hmz with hmz
        exact hm0 hmz

/-- C3 (amended): on a well-formed frame whose column `c` holds a
**nonnegative** rational series (the Google-Trends case: interest
values are 0–100), every `{c}_volatility` cell is a finite rational —
never `nan` or infinite — and it is `0` whenever the rolling mean is
zero or the ratio is undefined.  On columns with negative values a zero
rolling mean with a nonzero rolling standard deviation makes the
volatility `+inf`, which `fillna(0)` does not coerce (see the
counterexample). -/
theorem volatility_nonneg_finite (df : DataFrame) (c : String) (w : ℕ)
    (qs : List ℚ)
    (hwf : df.Wf) (hne : df.isEmptyFrame = false)
    (hdate : df.colNames.contains "date" = false)
    (hc : df.colNames.contains c = true)
    (hcol : df.getCol c = qs.map PVal.num)
    (hw : 1 ≤ w) (hnonneg : ∀ x ∈ qs, 0 ≤ x) :
    ((calculate_trends df [c] w).getCol (volName c)).length = qs.length ∧
    (∀ t, t < qs.length → ∃ r : ℚ,
      ((calculate_trends df [c] w).getCol (volName c)).getD t PVal.nan =
        PVal.num r) ∧
    (∀ t, t < qs.length →
      (rollingMean (qs.map PVal.num) w).getD t PVal.nan = PVal.num 0 →
      ((calculate_trends df [c] w).getCol (volName c)).getD t PVal.nan =
        PVal.num 0) := by
  rw [calculate_trends_single df c w hne hdate]
  simp only [calcTrendsCol, hc, if_true, hcol, List.length_map]
  have hrows : df.rows.length = qs.length := by
    rw [← getCol_length df c, hcol]
    simp
  set A := (rollingMean (qs.map PVal.num) w).map (PVal.roundTo 2) with hA
  set B := (rollingStd (qs.map PVal.num) w).map (PVal.roundTo 2) with hB
  set C := (pctChange (qs.map PVal.num)).map
    (fun v => (v.fillna (PVal.num 0)).roundTo 4) with hC
  set G := (growthRate (qs.map PVal.num) w).map
    (fun v => (v.fillna (PVal.num 0)).roundTo 2) with hG
  set V := List.zipWith
    (fun s m => (((s.div m).mul (PVal.num 100)).fillna (PVal.num 0)).roundTo 2)
    (rollingStd (qs.map PVal.num) w) (rollingMean (qs.map PVal.num) w) with hV
  set d1 := df.setCol (maName c w) A with hd1
  set d2 := d1.setCol (stdName c w) B with hd2
  set d3 := d2.setCol (pctName c) C with hd3
  set d4 := d3.setCol (growthName c w) G with hd4
  have hAlen : A.length = df.rows.length := by
    rw [hA, hrows]
    simp [rollingMean_length]
  have h1wf : d1.Wf := wf_setCol _ _ _ hwf hAlen
  have h1rows : d1.rows.length = df.rows.length := rows_setCol_length _ _ _ hAlen
  have hBlen : B.length = d1.rows.length := by
    rw [hB, h1rows, hrows]
    simp [rollingStd_length]
  have h2wf : d2.Wf := wf_setCol _ _ _ h1wf hBlen
  have h2rows : d2.rows.length = d1.rows.length := rows_setCol_length _ _ _ hBlen
  have hClen : C.length = d2.rows.length := by
    rw [hC, h2rows, h1rows, hrows]
    simp [pctChange_length]
  have h3wf : d3.Wf := wf_setCol _ _ _ h2wf hClen
  have h3rows : d3.rows.length = d2.rows.length := rows_setCol_length _ _ _ hClen
  have hGlen : G.length = d3.rows.length := by
    rw [hG, h3rows, h2rows, h1rows, hrows]
    simp [growthRate_length]
  have h4wf : d4.Wf := wf_setCol _ _ _ h3wf hGlen
  have h4rows : d4.rows.length = d3.rows.length := rows_setCol_length _ _ _ hGlen
  have hVlen4 : V.length = d4.rows.length := by
    rw [hV, h4rows, h3rows, h2rows, h1rows, hrows]
    simp [rollingStd_length, rollingMean_length]
  have hVlen3 : V.length = d3.rows.length := by
    rw [hV, h3rows, h2rows, h1rows, hrows]
    simp [rollingStd_length, rollingMean_length]
  have hVlen : V.length = qs.length := by
    rw [hV]
    simp [rollingStd_length, rollingMean_length]
  have hconj2 : ∀ t, t < qs.length → ∃ r : ℚ, V.getD t PVal.nan = PVal.num r := by
    intro t ht
    rw [hV]
    exact (volatility_entry qs w t hw ht hnonneg).1
  have hconj3 : ∀ t, t < qs.length →
      (rollingMean (qs.map PVal.num) w).getD t PVal.nan = PVal.num 0 →
      V.getD t PVal.nan = PVal.num 0 := by
    intro t ht hm
    rw [hV]
    apply (volatility_entry qs w t hw ht hnonneg).2
    rw [← rollingMean_getD _ w t (by simpa using ht)]
    exact hm
  by_cases hwl : w ≤ qs.length
  · rw [if_pos hwl]
    have h5wf : (d4.setCol (volName c) V).Wf := wf_setCol _ _ _ h4wf hVlen4
    have hmain : ∀ dir2 : List PVal,
        dir2.length = (d4.setCol (volName c) V).rows.length →
        ((d4.setCol (volName c) V).setCol (dirName c) dir2).getCol (volName c) =
          V := by
      intro dir2 hdir2
      rw [getCol_setCol_ne _ _ _ _ h5wf hdir2 (volName_ne_dirName c)]
      rw [getCol_setCol_self d4 _ _ h4wf hVlen4]
    rw [hmain _ (by simp [getCol_length])]
    exact ⟨hVlen, hconj2, hconj3⟩
  · rw [if_neg hwl]
    have h5wf : (d3.setCol (volName c) V).Wf := wf_setCol _ _ _ h3wf hVlen3
    have hmain : ∀ dir2 : List PVal,
        dir2.length = (d3.setCol (volName c) V).rows.length →
        ((d3.setCol (volName c) V).setCol (dirName c) dir2).getCol (volName c) =
          V := by
      intro dir2 hdir2
      rw [getCol_setCol_ne _ _ _ _ h5wf hdir2 (volName_ne_dirName c)]
      rw [getCol_setCol_self d3 _ _ h3wf hVlen3]
    rw [hmain _ (by simp [getCol_length])]
    exact ⟨hVlen, hconj2, hconj3⟩

theorem volatility_nonneg_finite_witness :
    (DataFrame.mk ["v"] [[PVal.num 0], [PVal.num 2]]).Wf ∧
    (∀ x ∈ ([ (0:ℚ), 2 ] : List ℚ), 0 ≤ x) ∧
    (∃ r : ℚ, ((calculate_trends ⟨["v"], [[PVal.num 0], [PVal.num 2]]⟩
        ["v"] 2).getCol (volName "v")).getD 1 PVal.nan = PVal.num r) ∧
    ((calculate_trends ⟨["v"], [[PVal.num 0], [PVal.num 2]]⟩ ["v"] 2).getCol
        (volName "v")).getD 0 PVal.nan = PVal.num 0 :=
  ⟨by decide, by decide,
   (volatility_nonneg_finite ⟨["v"], [[PVal.num 0], [PVal.num 2]]⟩ "v" 2 [0, 2]
     (by decide) (by decide) (by decide) (by decide) (by decide) (by omega)
     (by decide)).2.1 1 (by decide),
   (volatility_nonneg_finite ⟨["v"], [[PVal.num 0], [PVal.num 2]]⟩ "v" 2 [0, 2]
     (by decide) (by decide) (by decide) (by decide) (by decide) (by omega)
     (by decide)).2.2 0 (by decide) (by decide)⟩

/-! Row-level characterizations of the frame operations, used to track
one daily row through the rebase pipeline. -/

theorem zipWith_map_same (f : PVal → PVal → PVal) (g h : List PVal → PVal)
    (l : List (List PVal)) :
    List.zipWith f (l.map g) (l.map h) = l.map (fun x => f (g x) (h x)) := by
  induction l with
  | nil => rfl
  | cons a l ih => simp only [List.map_cons, List.zipWith_cons_cons, ih]

theorem zip_map_same (l : List (List PVal)) (k : List PVal → PVal) :
    l.zip (l.map k) = l.map (fun x => (x, k x)) := by
  induction l with
  | nil => rfl
  | cons a l ih => simp only [List.map_cons, List.zip_cons_cons, ih]

theorem setCol_rows_none (df : DataFrame) (c : String) (k : List PVal → PVal)
    (hidx : df.colIdx c = none) :
    (df.setCol c (df.rows.map k)).rows = df.rows.map (fun r => r ++ [k r]) := by
  rw [DataFrame.setCol, hidx]
  simp only [zip_map_same, List.map_map]
  rfl

theorem keepCols_rows (df : DataFrame) (p : String → Bool) :
    (df.keepCols p).rows = df.rows.map (fun r =>
      ((List.range df.colNames.length).filter
        (fun i => p (df.colNames.getD i ""))).map (fun i => r.getD i PVal.nan)) :=
  rfl

theorem keep_map_eq_filter (l : List String) (p : String → Bool) :
    ((List.range l.length).filter (fun i => p (l.getD i ""))).map
      (fun i => l.getD i "") = l.filter p := by
  induction l with
  | nil => rfl
  | cons a l ih =>
    rw [List.length_cons, List.range_succ_eq_map, List.filter_cons]
    simp only [List.getD_cons_zero, List.filter_map, List.map_map]
    have hfe : (List.range l.length).filter
        ((fun i => p ((a :: l).getD i "")) ∘ (· + 1)) =
        (List.range l.length).filter (fun i => p (l.getD i "")) := by
      apply List.filter_congr
      intro i _
      simp [Function.comp]
    have hge : ∀ ks : List ℕ,
        ks.map ((fun i => (a :: l).getD i "") ∘ Nat.succ) =
          ks.map (fun i => l.getD i "") := by
      intro ks
      apply List.map_congr_left
      intro i _
      simp [Function.comp]
    by_cases ha : p a
    · rw [if_pos ha]
      rw [List.filter_cons, if_pos ha]
      simp only [List.map_cons, List.getD_cons_zero]
      congr 1
      rw [hfe, List.map_map, hge, ih]
    · rw [if_neg ha]
      rw [List.filter_cons, if_neg ha]
      rw [hfe, List.map_map, hge, ih]

theorem keepCols_colNames (df : DataFrame) (p : String → Bool) :
    (df.keepCols p).colNames = df.colNames.filter p :=
  keep_map_eq_filter df.colNames p

theorem find?_eq_of_unique {l : List ℕ} {p : ℕ → Bool} {x : ℕ}
    (hx : x ∈ l) (hpx : p x = true)
    (huniq : ∀ y ∈ l, p y = true → y = x) : l.find? p = some x := by
  induction l with
  | nil => cases hx
  | cons a l ih =>
    by_cases ha : p a = true
    · rw [List.find?_cons_of_pos _ ha]
      rw [huniq a (List.mem_cons_self a l) ha]
    · rw [List.find?_cons_of_neg _ (by simpa using ha)]
      have hxl : x ∈ l := by
        rcases List.mem_cons.mp hx with rfl | hxl
        · exact absurd hpx ha
        · exact hxl
      exact ih hxl (fun y hy hp => huniq y (List.mem_cons_of_mem a hy) hp)

theorem cell_of_projected (names : List String) (r : List PVal) (c : String) :
    ∀ ks : List ℕ,
      (match idxOfCol (ks.map (fun j => names.getD j "")) c with
       | some t => (ks.map (fun j => r.getD j PVal.nan)).getD t PVal.nan
       | none => PVal.nan) =
      (match ks.find? (fun j => names.getD j "" = c) with
       | some j => r.getD j PVal.nan
       | none => PVal.nan) := by
  intro ks
  induction ks with
  | nil => rfl
  | cons k ks ih =>
    simp only [List.map_cons]
    rw [idxOfCol]
    by_cases hk : names.getD k "" = c
    · rw [if_pos hk, List.find?_cons_of_pos _ (by simpa using hk)]
      simp
    · rw [if_neg hk, List.find?_cons_of_neg _ (by simpa using hk)]
      cases hidx : idxOfCol (ks.map (fun j => names.getD j "")) c with
      | none =>
        rw [hidx] at ih
        simpa using ih
      | some t =>
        rw [hidx] at ih
        simp only [Option.map_some', List.getD_cons_succ]
        simpa using ih

theorem nodup_getD_inj {l : List String} (h : l.Nodup) {i j : ℕ}
    (hi : i < l.length) (hj : j < l.length) (he : l.getD i "" = l.getD j "") :
    i = j := by
  rw [List.getD_eq_getElem l "" hi, List.getD_eq_getElem l "" hj] at he
  exact (List.Nodup.getElem_inj_iff h).mp he

theorem cellRow_keepCols (df : DataFrame) (p : String → Bool) (c : String)
    (hnodup : df.colNames.Nodup) (hp : p c = true) (r : List PVal) :
    (df.keepCols p).cellRow
      (((List.range df.colNames.length).filter
        (fun i => p (df.colNames.getD i ""))).map (fun i => r.getD i PVal.nan)) c =
    df.cellRow r c := by
  cases hidx : df.colIdx c with
  | none =>
    rw [cellRow_eq_nan hidx]
    have hnm : c ∉ df.colNames := idxOfCol_eq_none_iff.mp hidx
    have hidx2 : (df.keepCols p).colIdx c = none := by
      rw [DataFrame.colIdx, keepCols_colNames, idxOfCol_eq_none_iff]
      intro hmem
      exact hnm (List.mem_of_mem_filter hmem)
    rw [cellRow_eq_nan hidx2]
  | some i =>
    rw [cellRow_eq_getD hidx]
    have hib : i < df.colNames.length := idxOfCol_lt_length hidx
    have hgi : df.colNames.getD i "" = c := idxOfCol_getD hidx
    have hcell := cell_of_projected df.colNames r c
      ((List.range df.colNames.length).filter
        (fun j => p (df.colNames.getD j "")))
    have hfind : ((List.range df.colNames.length).filter
        (fun j => p (df.colNames.getD j ""))).find?
        (fun j => df.colNames.getD j "" = c) = some i := by
      apply find?_eq_of_unique
      · exact List.mem_filter.mpr ⟨List.mem_range.mpr hib, by
          rw [hgi]
          exact hp⟩
      · simpa using hgi
      · intro y hy hpy
        have hyb : y < df.colNames.length :=
          List.mem_range.mp (List.mem_filter.mp hy).1
        have hpy2 : df.colNames.getD y "" = c := by simpa using hpy
        exact nodup_getD_inj hnodup hyb hib (hpy2.trans hgi.symm)
    rw [hfind] at hcell
    exact hcell

theorem pval_mul_nan (a : PVal) : a.mul PVal.nan = PVal.nan := by
  cases a <;> rfl

theorem roundTo_nan (n : ℕ) : PVal.nan.roundTo n = PVal.nan := rfl

theorem getD_map_const_nan (l : List String) (j : ℕ) :
    (l.map (fun _ => PVal.nan)).getD j PVal.nan = PVal.nan := by
  rw [List.getD_eq_getElem?_getD, List.getElem?_map]
  cases l[j]? <;> rfl

theorem flatMap_length_one {α β : Type} (l : List α) (f : α → List β)
    (h : ∀ x ∈ l, (f x).length = 1) : (l.flatMap f).length = l.length := by
  induction l with
  | nil => rfl
  | cons a l ih =>
    rw [List.flatMap_cons, List.length_append, h a (List.mem_cons_self a l),
      ih (fun x hx => h x (List.mem_cons_of_mem a hx))]
    rw [List.length_cons]
    omega

theorem length_filter_le_one {α β : Type} [DecidableEq β] (rows : List α)
    (key : α → β) (k : β) (p : α → Bool)
    (hnodup : (rows.map key).Nodup)
    (hp : ∀ r ∈ rows, (p r = true ↔ key r = k)) :
    (rows.filter p).length ≤ 1 := by
  induction rows with
  | nil => simp
  | cons a rows ih =>
    rw [List.map_cons, List.nodup_cons] at hnodup
    by_cases hpa : p a = true
    · rw [List.filter_cons_of_pos hpa]
      have hrest : rows.filter p = [] := by
        rw [List.filter_eq_nil_iff]
        intro r hr hpr
        have hkr : key r = k := (hp r (List.mem_cons_of_mem a hr)).mp hpr
        have hka : key a = k := (hp a (List.mem_cons_self a rows)).mp hpa
        exact hnodup.1 (by
          rw [← hka] at hkr
          exact List.mem_map.mpr ⟨r, hr, hkr⟩)
      rw [hrest]
      simp
    · rw [List.filter_cons_of_neg (by simpa using hpa)]
      exact ih hnodup.2 (fun r hr => hp r (List.mem_cons_of_mem a hr))

theorem sortByDate_colNames (df : DataFrame) :
    df.sortByDate.colNames = df.colNames := rfl

theorem sortByDate_rows_perm (df : DataFrame) :
    df.sortByDate.rows.Perm df.rows := List.perm_insertionSort _ _

theorem cellRow_sortByDate (df : DataFrame) (r : List PVal) (c : String) :
    df.sortByDate.cellRow r c = df.cellRow r c := rfl

theorem mergeLeft_colNames (left right : DataFrame) (keys : List String)
    (sfx : String) :
    (mergeLeft left right keys sfx).colNames =
      left.colNames ++
        (right.colNames.filter (fun c => !(keys.contains c))).map
          (fun c => if left.colNames.contains c then c ++ sfx else c) := rfl

theorem mergeLeft_rows (left right : DataFrame) (keys : List String)
    (sfx : String) :
    (mergeLeft left right keys sfx).rows =
      left.rows.flatMap (fun lr =>
        let ms := right.rows.filter (fun rr =>
          keys.all (fun k => right.cellRow rr k = left.cellRow lr k))
        if ms.isEmpty then
          [lr ++ (right.colNames.filter (fun c => !(keys.contains c))).map
            (fun _ => PVal.nan)]
        else ms.map (fun rr =>
          lr ++ (right.colNames.filter (fun c => !(keys.contains c))).map
            (fun c => right.cellRow rr c))) := rfl

theorem idxOfCol_some_of_mem {ns : List String} {c : String} (h : c ∈ ns) :
    ∃ i, idxOfCol ns c = some i := by
  cases hidx : idxOfCol ns c with
  | none => exact absurd (idxOfCol_eq_none_iff.mp hidx) (not_not.mpr h)
  | some i => exact ⟨i, rfl⟩

theorem str_append_ne_append_rev (c s t u : String) (hs : 2 < s.data.length)
    (hu : 2 < u.data.length)
    (h : s.data.reverse.getD 2 ' ' ≠ u.data.reverse.getD 2 ' ') :
    c ++ s ≠ t ++ u := by
  intro he
  apply h
  have hd := congrArg (fun x : String => x.data.reverse.getD 2 ' ') he
  simp only [String.data_append, List.reverse_append] at hd
  rw [List.getD_append _ _ _ _ (by simpa using hs),
    List.getD_append _ _ _ _ (by simpa using hu)] at hd
  exact hd

theorem setCol_colNames_none (df : DataFrame) (c : String) (vs : List PVal)
    (h : df.colIdx c = none) :
    (df.setCol c vs).colNames = df.colNames ++ [c] := by
  rw [DataFrame.setCol, h]

/-- The composed form of a successful `merge_daily_monthly` run: both
inputs non-empty and both carrying `year` and `month`. -/
theorem merge_daily_monthly_eq (daily monthly : DataFrame) (kws : List String)
    (hd : daily.isEmptyFrame = false) (hm : monthly.isEmptyFrame = false)
    (hy_d : daily.colNames.contains "year" = true)
    (hy_m : monthly.colNames.contains "year" = true)
    (hmo_d : daily.colNames.contains "month" = true)
    (hmo_m : monthly.colNames.contains "month" = true) :
    merge_daily_monthly daily monthly kws = Except.ok (
      let merged2 := ((kws.foldl scaleKeyword
        (mergedJ daily monthly)).dropCol "year").dropCol "month"
      if merged2.colNames.contains "date" then merged2.sortByDate else merged2) := by
  rw [merge_daily_monthly]
  rw [if_neg (by rw [hd, hm]; decide)]
  rw [if_neg (by rw [hy_d]; decide)]
  rw [if_neg (by rw [hy_m]; decide)]
  rw [if_neg (by rw [hmo_d]; decide)]
  rw [if_neg (by rw [hmo_m]; decide)]
  rfl

theorem contains_eq_true_of_mem {l : List String} {a : String} (h : a ∈ l) :
    l.contains a = true :=
  List.elem_eq_true_of_mem h

theorem mergedJ_rows (daily monthly : DataFrame) :
    (mergedJ daily monthly).rows =
      daily.rows.flatMap
        (mergeBranch daily (monthly.dropCol "date") ["year", "month"]) := rfl

theorem mergedJ_colNames (daily monthly : DataFrame) :
    (mergedJ daily monthly).colNames =
      daily.colNames ++
        ((monthly.dropCol "date").colNames.filter
          (fun c => !((["year", "month"] : List String).contains c))).map
          (fun c => if daily.colNames.contains c then c ++ "_monthly" else c) :=
  rfl

theorem scaleKeyword_eq (df : DataFrame) (kw : String)
    (hc : (df.colNames.contains kw &&
      df.colNames.contains (kw ++ "_monthly")) = true) :
    scaleKeyword df kw =
      (df.setCol (kw ++ "_daily") (df.rows.map (scaledFn df kw))).dropCol kw := by
  rw [scaleKeyword, if_pos hc]
  show (df.setCol (kw ++ "_daily")
    (List.zipWith (fun a b => ((a.mul b).div (PVal.num 100)).roundTo 2)
      (df.rows.map (fun r => df.cellRow r kw))
      (df.rows.map (fun r => df.cellRow r (kw ++ "_monthly"))))).dropCol kw = _
  rw [zipWith_map_same]
  rfl

theorem keepCols_rows_length (df : DataFrame) (p : String → Bool) :
    (df.keepCols p).rows.length = df.rows.length := by
  rw [keepCols_rows, List.length_map]

theorem dropCol_rows_length (df : DataFrame) (c : String) :
    (df.dropCol c).rows.length = df.rows.length :=
  keepCols_rows_length df _

theorem dropCol_colNames (df : DataFrame) (c : String) :
    (df.dropCol c).colNames = df.colNames.filter (fun n => n ≠ c) :=
  keepCols_colNames df _

theorem dropCol_nodup (df : DataFrame) (c : String)
    (h : df.colNames.Nodup) : (df.dropCol c).colNames.Nodup := by
  rw [dropCol_colNames]
  exact h.filter _

theorem dropCol_cell (df : DataFrame) (c : String) (hnodup : df.colNames.Nodup)
    (r : List PVal) (hr : r ∈ df.rows) :
    ∃ r2 ∈ (df.dropCol c).rows, ∀ c2, c2 ≠ c →
      (df.dropCol c).cellRow r2 c2 = df.cellRow r c2 := by
  refine ⟨((List.range df.colNames.length).filter
      (fun i => decide (df.colNames.getD i "" ≠ c))).map
        (fun i => r.getD i PVal.nan), ?_, ?_⟩
  · show _ ∈ (df.keepCols (fun n => n ≠ c)).rows
    rw [keepCols_rows]
    exact List.mem_map_of_mem _ hr
  · intro c2 hc2
    exact cellRow_keepCols df (fun n => n ≠ c) c2 hnodup (decide_eq_true hc2) r

theorem merge_daily_monthly_single (daily monthly : DataFrame) (kw : String)
    (hd : daily.isEmptyFrame = false) (hm : monthly.isEmptyFrame = false)
    (hy_d : daily.colNames.contains "year" = true)
    (hy_m : monthly.colNames.contains "year" = true)
    (hmo_d : daily.colNames.contains "month" = true)
    (hmo_m : monthly.colNames.contains "month" = true)
    (hc : ((mergedJ daily monthly).colNames.contains kw &&
      (mergedJ daily monthly).colNames.contains (kw ++ "_monthly")) = true)
    (hdate : (mergedF daily monthly kw).colNames.contains "date" = true) :
    merge_daily_monthly daily monthly [kw] =
      Except.ok ((mergedF daily monthly kw).sortByDate) := by
  rw [merge_daily_monthly_eq daily monthly [kw] hd hm hy_d hy_m hmo_d hmo_m]
  simp only [List.foldl_cons, List.foldl_nil]
  rw [scaleKeyword_eq _ _ hc]
  show Except.ok (if (mergedF daily monthly kw).colNames.contains "date" = true
    then (mergedF daily monthly kw).sortByDate else mergedF daily monthly kw) = _
  rw [if_pos hdate]

theorem mergeBranch_mem_form (left right : DataFrame) (keys : List String)
    (lr x : List PVal) (hx : x ∈ mergeBranch left right keys lr) :
    ∃ tail, x = lr ++ tail ∧
      tail.length =
        (right.colNames.filter (fun c => !(keys.contains c))).length := by
  simp only [mergeBranch] at hx
  by_cases hms : (right.rows.filter (fun rr =>
      keys.all (fun k => right.cellRow rr k = left.cellRow lr k))).isEmpty = true
  · rw [if_pos hms, List.mem_singleton] at hx
    exact ⟨_, hx, by simp⟩
  · rw [if_neg hms, List.mem_map] at hx
    obtain ⟨rr, _, hform⟩ := hx
    exact ⟨_, hform.symm, by simp⟩

theorem mergeBranch_ym_length_one (left right : DataFrame) (lr : List PVal)
    (huniq : (right.rows.map (fun rr =>
      (right.cellRow rr "year", right.cellRow rr "month"))).Nodup) :
    (mergeBranch left right ["year", "month"] lr).length = 1 := by
  simp only [mergeBranch]
  by_cases hms : (right.rows.filter (fun rr =>
      (["year", "month"] : List String).all
        (fun k => right.cellRow rr k = left.cellRow lr k))).isEmpty = true
  · rw [if_pos hms]
    rfl
  · rw [if_neg hms, List.length_map]
    have hle := length_filter_le_one right.rows
      (fun rr => (right.cellRow rr "year", right.cellRow rr "month"))
      (left.cellRow lr "year", left.cellRow lr "month")
      (fun rr => (["year", "month"] : List String).all
        (fun k => right.cellRow rr k = left.cellRow lr k))
      huniq ?_
    · have hne : right.rows.filter (fun rr =>
          (["year", "month"] : List String).all
            (fun k => right.cellRow rr k = left.cellRow lr k)) ≠ [] := by
        intro he
        rw [he] at hms
        exact hms rfl
      have hpos := List.length_pos.mpr hne
      omega
    · intro rr _
      simp only [List.all_cons, List.all_nil, Bool.and_true, Bool.and_eq_true,
        decide_eq_true_eq, Prod.mk.injEq]

theorem mergeBranch_ym_nomatch (left right : DataFrame) (lr : List PVal)
    (hnomatch : ∀ rr ∈ right.rows,
      ¬(right.cellRow rr "year" = left.cellRow lr "year" ∧
        right.cellRow rr "month" = left.cellRow lr "month")) :
    mergeBranch left right ["year", "month"] lr =
      [lr ++ (right.colNames.filter
        (fun c => !((["year", "month"] : List String).contains c))).map
        (fun _ => PVal.nan)] := by
  simp only [mergeBranch]
  have hfil : right.rows.filter (fun rr =>
      (["year", "month"] : List String).all
        (fun k => right.cellRow rr k = left.cellRow lr k)) = [] := by
    rw [List.filter_eq_nil_iff]
    intro rr hrr
    simp only [List.all_cons, List.all_nil, Bool.and_true, Bool.and_eq_true,
      decide_eq_true_eq]
    exact hnomatch rr hrr
  rw [hfil]
  rfl

theorem mem_of_contains_eq_true {l : List String} {a : String}
    (h : l.contains a = true) : a ∈ l :=
  List.mem_of_elem_eq_true h

theorem contains_eq_false_of_not_mem {l : List String} {a : String}
    (h : a ∉ l) : l.contains a = false := by
  cases hc : l.contains a
  · rfl
  · exact absurd (List.mem_of_elem_eq_true hc) h

/-- C6: for every well-formed pair of non-empty daily and monthly frames
carrying `year`/`month` (and the expected keyword columns, with no name
clashes), `merge_daily_monthly` returns `Except.ok` — it never raises —
even when a daily row has no `(year, month)` match in the monthly frame;
every daily row is kept (the output has exactly one row per daily row,
each preserving its `date` cell), and an unmatched daily row gets `NaN`
(a null, not zero) in the corrected `{kw}_daily` column. -/
theorem rebase_unmatched_daily_null_not_error
    (daily monthly : DataFrame) (kw : String) (lr : List PVal)
    (hwf : daily.Wf)
    (hd : daily.isEmptyFrame = false) (hm : monthly.isEmptyFrame = false)
    (hy_d : daily.colNames.contains "year" = true)
    (hy_m : monthly.colNames.contains "year" = true)
    (hmo_d : daily.colNames.contains "month" = true)
    (hmo_m : monthly.colNames.contains "month" = true)
    (hdate_d : "date" ∈ daily.colNames)
    (hkw_d : kw ∈ daily.colNames)
    (hkwm_M : kw ++ "_monthly" ∈ (monthly.dropCol "date").colNames)
    (hnoshadow : kw ++ "_monthly" ∉ daily.colNames)
    (hnokwd_d : kw ++ "_daily" ∉ daily.colNames)
    (hnokwd_M : kw ++ "_daily" ∉ (monthly.dropCol "date").colNames)
    (hkwnd : kw ≠ "date")
    (hnodup : (mergedJ daily monthly).colNames.Nodup)
    (huniq : ((monthly.dropCol "date").rows.map (fun rr =>
      ((monthly.dropCol "date").cellRow rr "year",
       (monthly.dropCol "date").cellRow rr "month"))).Nodup)
    (hlr : lr ∈ daily.rows)
    (hnomatch : ∀ rr ∈ (monthly.dropCol "date").rows,
      ¬((monthly.dropCol "date").cellRow rr "year" = daily.cellRow lr "year" ∧
        (monthly.dropCol "date").cellRow rr "month" =
          daily.cellRow lr "month")) :
    ∃ out : DataFrame,
      merge_daily_monthly daily monthly [kw] = Except.ok out ∧
      out.rows.length = daily.rows.length ∧
      (∀ r ∈ daily.rows, ∃ orow ∈ out.rows,
        out.cellRow orow "date" = daily.cellRow r "date") ∧
      (∃ orow ∈ out.rows,
        out.cellRow orow "date" = daily.cellRow lr "date" ∧
        out.cellRow orow (kw ++ "_daily") = PVal.nan) := by
  have hJnames := mergedJ_colNames daily monthly
  have hkwm_rn : kw ++ "_monthly" ∈
      ((monthly.dropCol "date").colNames.filter
        (fun c => !((["year", "month"] : List String).contains c))).map
        (fun c => if daily.colNames.contains c then c ++ "_monthly" else c) := by
    have h1 : kw ++ "_monthly" ≠ "year" :=
      str_ne_of_last kw "_monthly" "year" (by decide) (by decide)
    have h2 : kw ++ "_monthly" ≠ "month" :=
      str_ne_of_last kw "_monthly" "month" (by decide) (by decide)
    refine List.mem_map.mpr ⟨kw ++ "_monthly",
      List.mem_filter.mpr ⟨hkwm_M, ?_⟩, ?_⟩
    · rw [contains_eq_false_of_not_mem (by simp [h1, h2])]
      rfl
    · rw [if_neg ?_]
      intro hcon
      exact hnoshadow (mem_of_contains_eq_true hcon)
  have hkwm_J : kw ++ "_monthly" ∈ (mergedJ daily monthly).colNames := by
    rw [hJnames]
    exact List.mem_append_right _ hkwm_rn
  have hkw_J : kw ∈ (mergedJ daily monthly).colNames := by
    rw [hJnames]
    exact List.mem_append_left _ hkw_d
  have hScond : ((mergedJ daily monthly).colNames.contains kw &&
      (mergedJ daily monthly).colNames.contains (kw ++ "_monthly")) = true := by
    rw [contains_eq_true_of_mem hkw_J, contains_eq_true_of_mem hkwm_J]
    rfl
  have hkwd_rn : kw ++ "_daily" ∉
      ((monthly.dropCol "date").colNames.filter
        (fun c => !((["year", "month"] : List String).contains c))).map
        (fun c => if daily.colNames.contains c then c ++ "_monthly" else c) := by
    intro hmem
    rw [List.mem_map] at hmem
    obtain ⟨c0, hc0, hren⟩ := hmem
    by_cases hdup : daily.colNames.contains c0 = true
    · rw [if_pos hdup] at hren
      exact str_append_ne_append_rev c0 "_monthly" kw "_daily" (by decide)
        (by decide) (by decide) hren
    · rw [if_neg hdup] at hren
      apply hnokwd_M
      rw [← hren]
      exact (List.mem_filter.mp hc0).1
  have hkwd_J : kw ++ "_daily" ∉ (mergedJ daily monthly).colNames := by
    rw [hJnames]
    intro hmem
    rcases List.mem_append.mp hmem with hmem | hmem
    · exact hnokwd_d hmem
    · exact hkwd_rn hmem
  have hJkwd_idx : (mergedJ daily monthly).colIdx (kw ++ "_daily") = none :=
    idxOfCol_eq_none_iff.mpr hkwd_J
  have hJkwd_idx2 : idxOfCol (mergedJ daily monthly).colNames
      (kw ++ "_daily") = none := hJkwd_idx
  have hS0names : ((mergedJ daily monthly).setCol (kw ++ "_daily")
      ((mergedJ daily monthly).rows.map
        (scaledFn (mergedJ daily monthly) kw))).colNames =
      (mergedJ daily monthly).colNames ++ [kw ++ "_daily"] :=
    setCol_colNames_none _ _ _ hJkwd_idx
  have hS0nodup : ((mergedJ daily monthly).setCol (kw ++ "_daily")
      ((mergedJ daily monthly).rows.map
        (scaledFn (mergedJ daily monthly) kw))).colNames.Nodup := by
    rw [hS0names, List.nodup_append]
    refine ⟨hnodup, List.nodup_singleton _, ?_⟩
    intro a ha hamem
    rw [List.mem_singleton] at hamem
    subst hamem
    exact hkwd_J ha
  have hS0rows : ((mergedJ daily monthly).setCol (kw ++ "_daily")
      ((mergedJ daily monthly).rows.map
        (scaledFn (mergedJ daily monthly) kw))).rows =
      (mergedJ daily monthly).rows.map
        (fun r => r ++ [scaledFn (mergedJ daily monthly) kw r]) :=
    setCol_rows_none _ _ _ hJkwd_idx
  have hdate_J : "date" ∈ (mergedJ daily monthly).colNames := by
    rw [hJnames]
    exact List.mem_append_left _ hdate_d
  have hFdate : (mergedF daily monthly kw).colNames.contains "date" = true := by
    apply contains_eq_true_of_mem
    simp only [mergedF]
    rw [dropCol_colNames, dropCol_colNames, dropCol_colNames, hS0names]
    refine List.mem_filter.mpr ⟨?_, by decide⟩
    refine List.mem_filter.mpr ⟨?_, by decide⟩
    refine List.mem_filter.mpr ⟨List.mem_append_left _ hdate_J, ?_⟩
    exact decide_eq_true (Ne.symm hkwnd)
  have hmain := merge_daily_monthly_single daily monthly kw hd hm hy_d hy_m
    hmo_d hmo_m hScond hFdate
  have htrack : ∀ jr ∈ (mergedJ daily monthly).rows,
      ∃ orow ∈ (mergedF daily monthly kw).sortByDate.rows,
        ∀ c2, c2 ≠ kw → c2 ≠ "year" → c2 ≠ "month" →
          (mergedF daily monthly kw).sortByDate.cellRow orow c2 =
            ((mergedJ daily monthly).setCol (kw ++ "_daily")
              ((mergedJ daily monthly).rows.map
                (scaledFn (mergedJ daily monthly) kw))).cellRow
              (jr ++ [scaledFn (mergedJ daily monthly) kw jr]) c2 := by
    intro jr hjr
    have hjrS : jr ++ [scaledFn (mergedJ daily monthly) kw jr] ∈
        ((mergedJ daily monthly).setCol (kw ++ "_daily")
          ((mergedJ daily monthly).rows.map
            (scaledFn (mergedJ daily monthly) kw))).rows := by
      rw [hS0rows]
      exact List.mem_map_of_mem _ hjr
    obtain ⟨r1, hr1, hc1⟩ := dropCol_cell _ kw hS0nodup _ hjrS
    obtain ⟨r2, hr2, hc2⟩ := dropCol_cell _ "year"
      (dropCol_nodup _ _ hS0nodup) r1 hr1
    obtain ⟨r3, hr3, hc3⟩ := dropCol_cell _ "month"
      (dropCol_nodup _ _ (dropCol_nodup _ _ hS0nodup)) r2 hr2
    refine ⟨r3, (sortByDate_rows_perm _).mem_iff.mpr hr3, ?_⟩
    intro c2 hckw hcy hcm
    rw [cellRow_sortByDate]
    simp only [mergedF]
    rw [hc3 c2 hcm, hc2 c2 hcy, hc1 c2 hckw]
  obtain ⟨idate, hidate⟩ := idxOfCol_some_of_mem hdate_d
  have hidate' : daily.colIdx "date" = some idate := hidate
  have hidate_lt : idate < daily.colNames.length := idxOfCol_lt_length hidate
  have hS0idx_date : ((mergedJ daily monthly).setCol (kw ++ "_daily")
      ((mergedJ daily monthly).rows.map
        (scaledFn (mergedJ daily monthly) kw))).colIdx "date" = some idate := by
    rw [DataFrame.colIdx, hS0names, hJnames, List.append_assoc]
    exact idxOfCol_append_left hidate
  have hdate_cell : ∀ r ∈ daily.rows, ∀ tail : List PVal, ∀ v : PVal,
      ((mergedJ daily monthly).setCol (kw ++ "_daily")
        ((mergedJ daily monthly).rows.map
          (scaledFn (mergedJ daily monthly) kw))).cellRow
        ((r ++ tail) ++ [v]) "date" = daily.cellRow r "date" := by
    intro r hr tail v
    have hlen : r.length = daily.colNames.length := hwf r hr
    rw [cellRow_eq_getD hS0idx_date]
    rw [List.getD_append _ _ _ _ (by rw [List.length_append]; omega)]
    rw [List.getD_append _ _ _ _ (by omega)]
    rw [cellRow_eq_getD hidate']
  refine ⟨(mergedF daily monthly kw).sortByDate, hmain, ?_, ?_, ?_⟩
  · rw [(sortByDate_rows_perm (mergedF daily monthly kw)).length_eq]
    simp only [mergedF]
    rw [dropCol_rows_length, dropCol_rows_length, dropCol_rows_length]
    rw [rows_setCol_length _ _ _ (by simp)]
    rw [mergedJ_rows]
    exact flatMap_length_one _ _ (fun x _ =>
      mergeBranch_ym_length_one daily (monthly.dropCol "date") x huniq)
  · intro r hr
    have hbne : mergeBranch daily (monthly.dropCol "date")
        ["year", "month"] r ≠ [] := by
      intro he
      have hone := mergeBranch_ym_length_one daily (monthly.dropCol "date")
        r huniq
      rw [he] at hone
      exact absurd hone (by decide)
    obtain ⟨x, hx⟩ := List.exists_mem_of_ne_nil _ hbne
    obtain ⟨tail, hxform, -⟩ := mergeBranch_mem_form _ _ _ _ _ hx
    have hjr : x ∈ (mergedJ daily monthly).rows := by
      rw [mergedJ_rows]
      exact List.mem_flatMap.mpr ⟨r, hr, hx⟩
    obtain ⟨orow, horow, hcell⟩ := htrack x hjr
    refine ⟨orow, horow, ?_⟩
    rw [hcell "date" (Ne.symm hkwnd) (by decide) (by decide)]
    rw [hxform]
    exact hdate_cell r hr tail _
  · have hbr := mergeBranch_ym_nomatch daily (monthly.dropCol "date") lr
      hnomatch
    have hjr : lr ++ ((monthly.dropCol "date").colNames.filter
        (fun c => !((["year", "month"] : List String).contains c))).map
        (fun _ => PVal.nan) ∈ (mergedJ daily monthly).rows := by
      rw [mergedJ_rows]
      refine List.mem_flatMap.mpr ⟨lr, hlr, ?_⟩
      rw [hbr]
      exact List.mem_singleton.mpr rfl
    have hlrlen : lr.length = daily.colNames.length := hwf lr hlr
    have hkwm_idx_dn : idxOfCol daily.colNames (kw ++ "_monthly") = none :=
      idxOfCol_eq_none_iff.mpr hnoshadow
    obtain ⟨jkwm, hjkwm⟩ := idxOfCol_some_of_mem hkwm_rn
    have hJidx_kwm : (mergedJ daily monthly).colIdx (kw ++ "_monthly") =
        some (jkwm + daily.colNames.length) := by
      rw [DataFrame.colIdx, hJnames]
      rw [idxOfCol_append_right hkwm_idx_dn]
      rw [hjkwm]
      rfl
    have hkwm_cell : (mergedJ daily monthly).cellRow
        (lr ++ ((monthly.dropCol "date").colNames.filter
          (fun c => !((["year", "month"] : List String).contains c))).map
          (fun _ => PVal.nan)) (kw ++ "_monthly") = PVal.nan := by
      rw [cellRow_eq_getD hJidx_kwm]
      rw [List.getD_append_right _ _ _ _ (by omega)]
      rw [hlrlen, Nat.add_sub_cancel]
      exact getD_map_const_nan _ _
    have hjrlen : (lr ++ ((monthly.dropCol "date").colNames.filter
        (fun c => !((["year", "month"] : List String).contains c))).map
        (fun _ => PVal.nan)).length =
        (mergedJ daily monthly).colNames.length := by
      rw [List.length_append, hJnames, List.length_append, hlrlen]
      simp
    have hS0idx_kwd : ((mergedJ daily monthly).setCol (kw ++ "_daily")
        ((mergedJ daily monthly).rows.map
          (scaledFn (mergedJ daily monthly) kw))).colIdx (kw ++ "_daily") =
        some (0 + (mergedJ daily monthly).colNames.length) := by
      rw [DataFrame.colIdx, hS0names]
      rw [idxOfCol_append_right hJkwd_idx2]
      rw [idxOfCol, if_pos rfl]
      rfl
    obtain ⟨orow, horow, hcell⟩ := htrack _ hjr
    refine ⟨orow, horow, ?_, ?_⟩
    · rw [hcell "date" (Ne.symm hkwnd) (by decide) (by decide)]
      exact hdate_cell lr hlr _ _
    · have hkwdnekw : kw ++ "_daily" ≠ kw :=
        (str_ne_append_self kw "_daily" (by decide)).symm
      have hkwdney : kw ++ "_daily" ≠ "year" :=
        str_ne_of_last kw "_daily" "year" (by decide) (by decide)
      have hkwdnem : kw ++ "_daily" ≠ "month" :=
        str_ne_of_last kw "_daily" "month" (by decide) (by decide)
      rw [hcell (kw ++ "_daily") hkwdnekw hkwdney hkwdnem]
      rw [cellRow_eq_getD hS0idx_kwd]
      rw [List.getD_append_right _ _ _ _ (by rw [hjrlen]; omega)]
      rw [hjrlen]
      simp only [Nat.zero_add, Nat.sub_self]
      rw [scaledFn]
      rw [hkwm_cell, pval_mul_nan, pval_nan_div]
      rfl

theorem rebase_unmatched_daily_null_not_error_witness :
    ∃ out : DataFrame,
      merge_daily_monthly dailyU monthlyU ["outback"] = Except.ok out ∧
      out.rows.length = dailyU.rows.length ∧
      (∀ r ∈ dailyU.rows, ∃ orow ∈ out.rows,
        out.cellRow orow "date" = dailyU.cellRow r "date") ∧
      (∃ orow ∈ out.rows,
        out.cellRow orow "date" =
          dailyU.cellRow [PVal.num 2, PVal.num 2020, PVal.num 2, PVal.num 40]
            "date" ∧
        out.cellRow orow ("outback" ++ "_daily") = PVal.nan) :=
  rebase_unmatched_daily_null_not_error dailyU monthlyU "outback"
    [PVal.num 2, PVal.num 2020, PVal.num 2, PVal.num 40]
    (by decide) (by decide) (by decide) (by decide) (by decide) (by decide)
    (by decide) (by decide) (by decide) (by decide) (by decide) (by decide)
    (by decide) (by decide) (by decide) (by decide) (by decide) (by decide)
